import Mathlib

/-!
Verification of the `mmap-cache` key-value store core.

The reader side navigates a finite-state transducer (FST) whose arcs carry an
input byte and a partial integer output; the offset of a stored key is the sum
of the outputs along its accepting path.  We embed the FST as a finitely
branching tree (`Node`): the underlying library guarantees a deterministic,
trimmed automaton with transitions sorted strictly ascending by input byte,
which the predicate `WF` captures.  Bytes and outputs are modelled as `Nat`.

The reader functions `Cache.first`, `Cache.last`, `Cache.last_le`,
`Cache.last_le_recursive` and the helper `find_last_le_transition` are direct
translations of `src/cache.rs`; Rust panics (out-of-bounds writes into the
fixed `[u8; N]` key buffer, index underflow) are modelled by the `PRes.panicked`
result.  The builder functions in the `FileBuilder` namespace translate
`src/builder.rs`.
-/

/-- A node of the FST: a final flag and the outgoing transitions.  A transition
is a triple `(inp, out, target)`: input byte, partial output, target node. -/
inductive Node : Type where
  | mk : Bool → List (Nat × Nat × Node) → Node

/-- One outgoing arc of an FST node. -/
abbrev Transition : Type := Nat × Nat × Node

/-- The input byte of a transition. -/
def Transition.inp (t : Transition) : Nat := t.1

/-- The partial output of a transition. -/
def Transition.out (t : Transition) : Nat := t.2.1

/-- The target node of a transition. -/
def Transition.target (t : Transition) : Node := t.2.2

/-- The final flag of a node. -/
def Node.isFinal : Node → Bool
  | .mk f _ => f

/-- The transition list of a node (sorted ascending by input byte in a
well-formed FST). -/
def Node.trans : Node → List Transition
  | .mk _ ts => ts

/-- Number of outgoing transitions (`Node::len` in the source). -/
def Node.len (n : Node) : Nat := n.trans.length

/-- Whether the node has no outgoing transitions (`Node::is_empty`). -/
def Node.isEmpty (n : Node) : Bool := n.trans.isEmpty

/-- The `i`-th transition of a node (`Node::transition`).  All call sites in
the source index in bounds; out-of-range indices return a dummy arc. -/
def Node.transition (n : Node) (i : Nat) : Transition :=
  n.trans.getD i (0, 0, Node.mk false [])

@[simp] theorem Node.isFinal_mk (f : Bool) (ts : List Transition) :
    (Node.mk f ts).isFinal = f := rfl

@[simp] theorem Node.trans_mk (f : Bool) (ts : List Transition) :
    (Node.mk f ts).trans = ts := rfl

/-- Result of a computation that may hit a Rust panic (fatal abort). -/
inductive PRes (α : Type) : Type where
  | panicked : PRes α
  | ok : α → PRes α
deriving DecidableEq

/-- Sequencing of possibly-panicking computations: a panic propagates. -/
def PRes.bind {α β : Type} : PRes α → (α → PRes β) → PRes β
  | .panicked, _ => .panicked
  | .ok a, f => f a

/-- Write `v` at index `i` of the fixed-size key buffer; Rust `key[i] = v`
panics when `i` is out of bounds. -/
def keySet (key : List Nat) (i v : Nat) : PRes (List Nat) :=
  if i < key.length then .ok (key.set i v) else .panicked

/-! ## Lexicographic byte order -/

/-- Strict lexicographic order on byte sequences: a proper prefix is smaller
than its extensions. -/
def lexLt : List Nat → List Nat → Bool
  | [], [] => false
  | [], _ :: _ => true
  | _ :: _, [] => false
  | x :: xs, y :: ys => x < y || (x = y && lexLt xs ys)

/-- Reflexive closure of `lexLt`. -/
def keyLe (k l : List Nat) : Bool := lexLt k l || k = l

/-! ## The binary search of `find_last_le_transition` -/

/-- The loop of `find_last_le_transition`.  The source iterates
`while lower != upper`; the loop is only entered with `lower ≤ upper`
(initially `0 ≤ node.len()` and both branches preserve the bound), where
`lower ≠ upper` coincides with `lower < upper`, the guard used here to
express the termination measure `upper - lower`. -/
def findLastLeLoop (node : Node) (upper_bound : Nat) (lower upper : Nat) :
    Option (Nat × Transition) :=
  if h : lower < upper then
    let mid := (lower + upper) / 2
    let t := node.transition mid
    if t.inp ≤ upper_bound then
      if mid = node.len - 1 then some (mid, t)
      else if upper_bound < (node.transition (mid + 1)).inp then some (mid, t)
      else findLastLeLoop node upper_bound (mid + 1) upper
    else findLastLeLoop node upper_bound lower mid
  else none
termination_by upper - lower
decreasing_by
  · omega
  · omega

/-- Fuel-indexed version of the same loop, recursing on an explicit iteration
budget and reporting `none` when the budget is exhausted before the loop
exits.  Used to state termination of the loop. -/
def findLastLeLoopFuel (node : Node) (upper_bound : Nat) :
    Nat → Nat → Nat → Option (Option (Nat × Transition))
  | lower, upper, fuel =>
    if lower = upper then some none
    else
      match fuel with
      | 0 => none
      | fuel + 1 =>
        let mid := (lower + upper) / 2
        let t := node.transition mid
        if t.inp ≤ upper_bound then
          if mid = node.len - 1 then some (some (mid, t))
          else if upper_bound < (node.transition (mid + 1)).inp then some (some (mid, t))
          else findLastLeLoopFuel node upper_bound (mid + 1) upper fuel
        else findLastLeLoopFuel node upper_bound lower mid fuel

/-- Greatest transition with input byte below the bound, by binary search
(`find_last_le_transition` in `src/cache.rs`). -/
def find_last_le_transition (node : Node) (upper_bound : Nat) :
    Option (Nat × Transition) :=
  findLastLeLoop node upper_bound 0 node.len

/-! ## Semantics of the FST: accepted keys and their offsets -/

mutual

/-- All `(key, offset)` pairs accepted from a node, enumerated final-state
first and then transition groups in list order; for a well-formed node this
is ascending lexicographic order.  The offset of a path is the sum of the arc
outputs along it. -/
def entries : Node → List (List Nat × Nat)
  | .mk f ts => (if f then [([], 0)] else []) ++ entriesList ts

/-- Entries contributed by a transition list: each target entry is prefixed
with the arc byte and shifted by the arc output. -/
def entriesList : List Transition → List (List Nat × Nat)
  | [] => []
  | t :: ts =>
      (entries t.2.2).map (fun kv => (t.1 :: kv.1, t.2.1 + kv.2)) ++ entriesList ts

end

mutual

/-- Well-formedness of the embedded FST, as guaranteed by the index library:
transitions are sorted strictly ascending by input byte, every subtree is
well-formed, and every node lies on an accepting path (a node with no
transitions is final). -/
def WFb : Node → Bool
  | .mk f ts => ascendingInps ts && WFbList ts && (f || !ts.isEmpty)

/-- All targets of a transition list are well-formed. -/
def WFbList : List Transition → Bool
  | [] => true
  | t :: ts => WFb t.2.2 && WFbList ts

/-- Adjacent input bytes strictly increase along the transition list. -/
def ascendingInps : List Transition → Bool
  | [] => true
  | [_] => true
  | t₁ :: t₂ :: ts => decide (t₁.1 < t₂.1) && ascendingInps (t₂ :: ts)

end

/-- Well-formed FST node. -/
@[reducible] def WF (n : Node) : Prop := WFb n = true

/-- Length of the longest key accepted from `n`. -/
def maxKeyLen (n : Node) : Nat :=
  ((entries n).map (fun kv => kv.1.length)).foldr max 0

/-! ## Order lemmas for `lexLt` and `keyLe` -/

@[simp] theorem lexLt_nil_nil : lexLt [] [] = false := rfl

@[simp] theorem lexLt_nil_cons (y : Nat) (ys : List Nat) :
    lexLt [] (y :: ys) = true := rfl

@[simp] theorem lexLt_cons_nil (x : Nat) (xs : List Nat) :
    lexLt (x :: xs) [] = false := rfl

theorem lexLt_cons_cons (x y : Nat) (xs ys : List Nat) :
    lexLt (x :: xs) (y :: ys) = true ↔ x < y ∨ (x = y ∧ lexLt xs ys = true) := by
  simp [lexLt]

theorem lexLt_irrefl (k : List Nat) : lexLt k k = false := by
  induction k with
  | nil => rfl
  | cons x xs ih => simp [lexLt, ih]

theorem lexLt_trans {a b c : List Nat} (hab : lexLt a b = true)
    (hbc : lexLt b c = true) : lexLt a c = true := by
  induction a generalizing b c with
  | nil =>
    cases c with
    | nil =>
      cases b with
      | nil => exact hab
      | cons y ys => simp at hbc
    | cons z zs => simp
  | cons x xs ih =>
    cases b with
    | nil => simp at hab
    | cons y ys =>
      cases c with
      | nil => simp at hbc
      | cons z zs =>
        rw [lexLt_cons_cons] at hab hbc ⊢
        rcases hab with h1 | ⟨h1, h1'⟩ <;> rcases hbc with h2 | ⟨h2, h2'⟩
        · exact Or.inl (by omega)
        · exact Or.inl (by omega)
        · exact Or.inl (by omega)
        · exact Or.inr ⟨by omega, ih h1' h2'⟩

theorem lexLt_asymm {a b : List Nat} (h : lexLt a b = true) : lexLt b a = false := by
  by_contra hc
  have hba : lexLt b a = true := by
    cases hb : lexLt b a
    · exact absurd hb hc
    · rfl
  have := lexLt_trans h hba
  rw [lexLt_irrefl] at this
  exact Bool.false_ne_true this

theorem lexLt_connex {a b : List Nat} (hab : lexLt a b = false)
    (hba : lexLt b a = false) : a = b := by
  induction a generalizing b with
  | nil =>
    cases b with
    | nil => rfl
    | cons y ys => simp at hab
  | cons x xs ih =>
    cases b with
    | nil => simp at hba
    | cons y ys =>
      simp only [lexLt, Bool.or_eq_false_iff, Bool.and_eq_false_iff,
        decide_eq_false_iff_not] at hab hba
      obtain ⟨h1, h2⟩ := hab
      obtain ⟨h3, h4⟩ := hba
      have hxy : x = y := by omega
      subst hxy
      rcases h2 with h2 | h2
      · omega
      · rcases h4 with h4 | h4
        · omega
        · rw [ih h2 h4]

@[simp] theorem keyLe_refl (k : List Nat) : keyLe k k = true := by
  simp [keyLe]

@[simp] theorem keyLe_nil_left (k : List Nat) : keyLe [] k = true := by
  cases k <;> simp [keyLe, lexLt]

@[simp] theorem keyLe_nil_right (k : List Nat) : keyLe k [] = (k = []) := by
  cases k <;> simp [keyLe, lexLt]

@[simp] theorem keyLe_cons_nil (x : Nat) (xs : List Nat) :
    keyLe (x :: xs) [] = false := by
  simp [keyLe]

theorem keyLe_of_lexLt {a b : List Nat} (h : lexLt a b = true) : keyLe a b = true := by
  simp [keyLe, h]

theorem keyLe_cons_cons (x y : Nat) (xs ys : List Nat) :
    keyLe (x :: xs) (y :: ys) = true ↔ x < y ∨ (x = y ∧ keyLe xs ys = true) := by
  simp only [keyLe, Bool.or_eq_true, decide_eq_true_eq, lexLt_cons_cons,
    List.cons.injEq]
  constructor
  · rintro ((h | ⟨h, h'⟩) | ⟨h, h'⟩)
    · exact Or.inl h
    · exact Or.inr ⟨h, Or.inl h'⟩
    · exact Or.inr ⟨h, Or.inr h'⟩
  · rintro (h | ⟨h, h' | h'⟩)
    · exact Or.inl (Or.inl h)
    · exact Or.inl (Or.inr ⟨h, h'⟩)
    · exact Or.inr ⟨h, h'⟩

theorem keyLe_trans {a b c : List Nat} (hab : keyLe a b = true)
    (hbc : keyLe b c = true) : keyLe a c = true := by
  simp only [keyLe, Bool.or_eq_true, decide_eq_true_eq] at hab hbc ⊢
  rcases hab with hab | hab
  · rcases hbc with hbc | hbc
    · exact Or.inl (lexLt_trans hab hbc)
    · subst hbc; exact Or.inl hab
  · subst hab
    exact hbc

theorem keyLe_antisymm {a b : List Nat} (hab : keyLe a b = true)
    (hba : keyLe b a = true) : a = b := by
  simp only [keyLe, Bool.or_eq_true, decide_eq_true_eq] at hab hba
  rcases hab with hab | hab
  · rcases hba with hba | hba
    · rw [lexLt_asymm hab] at hba
      exact absurd hba Bool.false_ne_true
    · exact hba.symm
  · exact hab

theorem keyLe_total (a b : List Nat) : keyLe a b = true ∨ keyLe b a = true := by
  cases hab : lexLt a b
  · cases hba : lexLt b a
    · exact Or.inl (by simp [keyLe, lexLt_connex hab hba])
    · exact Or.inr (keyLe_of_lexLt hba)
  · exact Or.inl (keyLe_of_lexLt hab)

theorem not_keyLe_of_lexLt {a b : List Nat} (h : lexLt a b = true) :
    keyLe b a = false := by
  cases hba : keyLe b a
  · rfl
  · have := keyLe_antisymm (keyLe_of_lexLt h) hba
    subst this
    rw [lexLt_irrefl] at h
    exact absurd h (by simp)

theorem lexLt_of_head_lt {x y : Nat} (h : x < y) (xs ys : List Nat) :
    lexLt (x :: xs) (y :: ys) = true := by
  rw [lexLt_cons_cons]
  exact Or.inl h

theorem keyLe_cons_cons_same {x : Nat} {xs ys : List Nat}
    (h : keyLe xs ys = true) : keyLe (x :: xs) (x :: ys) = true := by
  rw [keyLe_cons_cons]
  exact Or.inr ⟨rfl, h⟩

theorem not_keyLe_cons_of_head_gt {x y : Nat} (h : y < x) (xs ys : List Nat) :
    keyLe (x :: xs) (y :: ys) = false := by
  exact not_keyLe_of_lexLt (lexLt_of_head_lt h ys xs)

/-! ## Correctness of the binary search -/

theorem transition_getElem {n : Node} {i : Nat} (h : i < n.len) :
    n.trans[i]? = some (n.transition i) := by
  rw [Node.transition, List.getD_eq_getElem _ _ h]
  exact List.getElem?_eq_getElem h

theorem transition_mem {n : Node} {i : Nat} (h : i < n.len) :
    n.transition i ∈ n.trans := by
  have := transition_getElem h
  exact List.getElem?_mem this

/-- Sorted transition lists have strictly increasing input bytes at increasing
indices. -/
theorem inp_strictMono {n : Node}
    (hs : List.Pairwise (fun a b : Transition => a.inp < b.inp) n.trans)
    {i j : Nat} (hij : i < j) (hj : j < n.len) :
    (n.transition i).inp < (n.transition j).inp := by
  have hi : i < n.len := Nat.lt_trans hij hj
  rw [List.pairwise_iff_getElem] at hs
  have := hs i j hi hj hij
  rw [Node.transition, Node.transition, List.getD_eq_getElem _ _ hi,
    List.getD_eq_getElem _ _ hj]
  exact this

theorem inp_mono {n : Node}
    (hs : List.Pairwise (fun a b : Transition => a.inp < b.inp) n.trans)
    {i j : Nat} (hij : i ≤ j) (hj : j < n.len) :
    (n.transition i).inp ≤ (n.transition j).inp := by
  rcases Nat.lt_or_ge i j with h | h
  · exact Nat.le_of_lt (inp_strictMono hs h hj)
  · have : i = j := Nat.le_antisymm hij h
    subst this
    exact Nat.le_refl _

/-- In-bounds result of the loop, with no sortedness assumption; needed to
justify termination of the recursive descent. -/
theorem findLastLeLoop_mem (node : Node) (u : Nat) :
    ∀ fuel lower upper, upper - lower ≤ fuel → upper ≤ node.len →
    ∀ i t, findLastLeLoop node u lower upper = some (i, t) →
    i < node.len ∧ node.transition i = t := by
  intro fuel
  induction fuel with
  | zero =>
    intro lower upper hf hup i t h
    rw [findLastLeLoop] at h
    have : ¬ lower < upper := by omega
    rw [dif_neg this] at h
    exact absurd h (by simp)
  | succ fuel ih =>
    intro lower upper hf hup i t h
    rw [findLastLeLoop] at h
    by_cases hlu : lower < upper
    · rw [dif_pos hlu] at h
      simp only at h
      have hmid : (lower + upper) / 2 < node.len := by omega
      by_cases h5 : (node.transition ((lower + upper) / 2)).inp ≤ u
      · rw [if_pos h5] at h
        by_cases h6 : (lower + upper) / 2 = node.len - 1
        · rw [if_pos h6] at h
          obtain ⟨rfl, rfl⟩ : (lower + upper) / 2 = i ∧
              node.transition ((lower + upper) / 2) = t := by
            have := Option.some.inj h
            exact ⟨congrArg Prod.fst this, congrArg Prod.snd this⟩
          exact ⟨hmid, rfl⟩
        · rw [if_neg h6] at h
          by_cases h7 : u < (node.transition ((lower + upper) / 2 + 1)).inp
          · rw [if_pos h7] at h
            obtain ⟨rfl, rfl⟩ : (lower + upper) / 2 = i ∧
                node.transition ((lower + upper) / 2) = t := by
              have := Option.some.inj h
              exact ⟨congrArg Prod.fst this, congrArg Prod.snd this⟩
            exact ⟨hmid, rfl⟩
          · rw [if_neg h7] at h
            exact ih ((lower + upper) / 2 + 1) upper (by omega) hup i t h
      · rw [if_neg h5] at h
        exact ih lower ((lower + upper) / 2) (by omega) (by omega) i t h
    · rw [dif_neg hlu] at h
      exact absurd h (by simp)

theorem find_last_le_transition_mem {node : Node} {u : Nat} {i : Nat}
    {t : Transition} (h : find_last_le_transition node u = some (i, t)) :
    i < node.len ∧ node.transition i = t :=
  findLastLeLoop_mem node u node.len 0 node.len (by omega) (Nat.le_refl _) i t h

/-- Invariant-based correctness of the binary-search loop: on a sorted
transition list it finds the index of the greatest input byte below the
bound, or reports that every input byte exceeds the bound. -/
theorem findLastLeLoop_spec (node : Node) (u : Nat)
    (hs : List.Pairwise (fun a b : Transition => a.inp < b.inp) node.trans) :
    ∀ fuel lower upper, upper - lower ≤ fuel →
    lower ≤ upper → upper ≤ node.len →
    (lower = 0 ∨ (lower < node.len ∧ (node.transition lower).inp ≤ u)) →
    (upper = node.len ∨ u < (node.transition upper).inp) →
    ((findLastLeLoop node u lower upper = none →
        ∀ j, j < node.len → u < (node.transition j).inp) ∧
     (∀ i t, findLastLeLoop node u lower upper = some (i, t) →
        i < node.len ∧ node.transition i = t ∧ t.inp ≤ u ∧
        ∀ j, j < node.len → (node.transition j).inp ≤ u → j ≤ i)) := by
  intro fuel
  induction fuel with
  | zero =>
    intro lower upper hf hlu hup hL hU
    have hle : lower = upper := by omega
    rw [findLastLeLoop, dif_neg (by omega : ¬ lower < upper)]
    refine ⟨fun _ j hj => ?_, fun i t h => absurd h (by simp)⟩
    rcases hL with hL | ⟨hL1, hL2⟩
    · subst hL
      rcases hU with hU | hU
      · omega
      · calc u < (node.transition upper).inp := hU
          _ ≤ (node.transition j).inp := by
            rw [← hle]
            exact inp_mono hs (Nat.zero_le j) hj
    · rcases hU with hU | hU
      · omega
      · rw [← hle] at hU
        omega
  | succ fuel ih =>
    intro lower upper hf hlu hup hL hU
    rw [findLastLeLoop]
    by_cases hcond : lower < upper
    · rw [dif_pos hcond]
      simp only
      have hmid : (lower + upper) / 2 < node.len := by omega
      by_cases h5 : (node.transition ((lower + upper) / 2)).inp ≤ u
      · rw [if_pos h5]
        by_cases h6 : (lower + upper) / 2 = node.len - 1
        · rw [if_pos h6]
          refine ⟨fun h => absurd h (by simp), fun i t h => ?_⟩
          obtain ⟨rfl, rfl⟩ : (lower + upper) / 2 = i ∧
              node.transition ((lower + upper) / 2) = t := by
            have := Option.some.inj h
            exact ⟨congrArg Prod.fst this, congrArg Prod.snd this⟩
          exact ⟨hmid, rfl, h5, fun j hj _ => by omega⟩
        · rw [if_neg h6]
          have hm1 : (lower + upper) / 2 + 1 < node.len := by omega
          by_cases h7 : u < (node.transition ((lower + upper) / 2 + 1)).inp
          · rw [if_pos h7]
            refine ⟨fun h => absurd h (by simp), fun i t h => ?_⟩
            obtain ⟨rfl, rfl⟩ : (lower + upper) / 2 = i ∧
                node.transition ((lower + upper) / 2) = t := by
              have := Option.some.inj h
              exact ⟨congrArg Prod.fst this, congrArg Prod.snd this⟩
            refine ⟨hmid, rfl, h5, fun j hj hju => ?_⟩
            by_contra hji
            have : (lower + upper) / 2 + 1 ≤ j := by omega
            have := inp_mono hs this hj
            omega
          · rw [if_neg h7]
            exact ih ((lower + upper) / 2 + 1) upper (by omega) (by omega) hup
              (Or.inr ⟨hm1, by omega⟩) hU
      · rw [if_neg h5]
        exact ih lower ((lower + upper) / 2) (by omega) (by omega) (by omega)
          hL (Or.inr (by omega))
    · rw [dif_neg hcond]
      have hle : lower = upper := by omega
      refine ⟨fun _ j hj => ?_, fun i t h => absurd h (by simp)⟩
      rcases hL with hL | ⟨hL1, hL2⟩
      · subst hL
        rcases hU with hU | hU
        · omega
        · calc u < (node.transition upper).inp := hU
            _ ≤ (node.transition j).inp := by
              rw [← hle]
              exact inp_mono hs (Nat.zero_le j) hj
      · rcases hU with hU | hU
        · omega
        · rw [← hle] at hU
          omega

/-- Correctness of `find_last_le_transition` on a sorted transition list. -/
theorem find_last_le_transition_spec (node : Node) (u : Nat)
    (hs : List.Pairwise (fun a b : Transition => a.inp < b.inp) node.trans) :
    ((find_last_le_transition node u = none →
        ∀ j, j < node.len → u < (node.transition j).inp) ∧
     (∀ i t, find_last_le_transition node u = some (i, t) →
        i < node.len ∧ node.transition i = t ∧ t.inp ≤ u ∧
        ∀ j, j < node.len → (node.transition j).inp ≤ u → j ≤ i)) :=
  findLastLeLoop_spec node u hs node.len 0 node.len (by omega) (Nat.zero_le _)
    (Nat.le_refl _) (Or.inl rfl) (Or.inl rfl)

/-! ## Structural facts about well-formed nodes and their entries -/

theorem sizeOf_target_lt {t : Transition} {n : Node} (h : t ∈ n.trans) :
    sizeOf t.2.2 < sizeOf n := by
  cases n with
  | mk f ts =>
    have h1 := List.sizeOf_lt_of_mem (show t ∈ ts from h)
    obtain ⟨a, b, m⟩ := t
    simp only [Node.mk.sizeOf_spec, Prod.mk.sizeOf_spec] at *
    simp at h1 ⊢
    omega

/-- Strong induction on the size of a node, used to recurse through arbitrary
transitions. -/
theorem node_strong_ind (P : Node → Prop)
    (ih : ∀ n : Node, (∀ m : Node, sizeOf m < sizeOf n → P m) → P n) :
    ∀ n, P n := by
  have key : ∀ k, ∀ m : Node, sizeOf m < k → P m := by
    intro k
    induction k with
    | zero => intro m h; omega
    | succ k ihk =>
      intro m h
      exact ih m (fun m' h' => ihk m' (by omega))
  intro n
  exact ih n (fun m h => key (sizeOf n) m h)

theorem WFbList_iff (ts : List Transition) :
    WFbList ts = true ↔ ∀ t ∈ ts, WFb t.2.2 = true := by
  induction ts with
  | nil => simp [WFbList]
  | cons t ts ih => simp [WFbList, ih]

theorem pairwise_of_ascendingInps :
    ∀ ts : List Transition, ascendingInps ts = true →
    List.Pairwise (fun a b : Transition => a.inp < b.inp) ts := by
  intro ts
  induction ts with
  | nil => intro; exact List.Pairwise.nil
  | cons t ts ih =>
    intro h
    cases ts with
    | nil => exact List.pairwise_singleton _ _
    | cons t' ts' =>
      rw [ascendingInps] at h
      simp only [Bool.and_eq_true, decide_eq_true_eq] at h
      have hp := ih h.2
      refine List.Pairwise.cons ?_ hp
      intro x hx
      rcases List.mem_cons.mp hx with rfl | hx
      · exact h.1
      · have := (List.pairwise_cons.mp hp).1 x hx
        calc Transition.inp t < t'.inp := h.1
          _ < x.inp := this

theorem WF_mk_iff (f : Bool) (ts : List Transition) :
    WF (Node.mk f ts) ↔
      List.Pairwise (fun a b : Transition => a.inp < b.inp) ts ∧
      (∀ t ∈ ts, WF t.2.2) ∧ (f = true ∨ ts ≠ []) := by
  constructor
  · intro h
    rw [WF, WFb] at h
    simp only [Bool.and_eq_true, Bool.or_eq_true] at h
    obtain ⟨⟨h1, h2⟩, h3⟩ := h
    refine ⟨pairwise_of_ascendingInps ts h1, (WFbList_iff ts).mp h2, ?_⟩
    rcases h3 with h3 | h3
    · exact Or.inl h3
    · right
      intro hnil
      subst hnil
      simp [List.isEmpty] at h3
  · intro ⟨h1, h2, h3⟩
    rw [WF, WFb]
    simp only [Bool.and_eq_true, Bool.or_eq_true]
    refine ⟨⟨?_, (WFbList_iff ts).mpr h2⟩, ?_⟩
    · clear h2 h3
      induction ts with
      | nil => rfl
      | cons t ts ih =>
        cases ts with
        | nil => rfl
        | cons t' ts' =>
          rw [ascendingInps]
          simp only [Bool.and_eq_true, decide_eq_true_eq]
          have hp := List.pairwise_cons.mp h1
          exact ⟨hp.1 t' (List.mem_cons_self _ _), ih hp.2⟩
    · rcases h3 with h3 | h3
      · exact Or.inl h3
      · right
        cases ts with
        | nil => exact absurd rfl h3
        | cons t ts => simp [List.isEmpty]

theorem WF_pairwise {n : Node} (h : WF n) :
    List.Pairwise (fun a b : Transition => a.inp < b.inp) n.trans := by
  cases n with
  | mk f ts => exact ((WF_mk_iff f ts).mp h).1

theorem WF_target {n : Node} (h : WF n) {t : Transition} (ht : t ∈ n.trans) :
    WF t.2.2 := by
  cases n with
  | mk f ts => exact ((WF_mk_iff f ts).mp h).2.1 t ht

theorem WF_final_of_empty {n : Node} (h : WF n) (he : n.trans = []) :
    n.isFinal = true := by
  cases n with
  | mk f ts =>
    rcases ((WF_mk_iff f ts).mp h).2.2 with hf | hne
    · exact hf
    · exact absurd (show ts = [] from he) hne

theorem entriesList_mem_iff (ts : List Transition) (kv : List Nat × Nat) :
    kv ∈ entriesList ts ↔
      ∃ t ∈ ts, ∃ kv', kv' ∈ entries t.2.2 ∧
        kv = (t.1 :: kv'.1, t.2.1 + kv'.2) := by
  induction ts with
  | nil => simp [entriesList]
  | cons t ts ih =>
    rw [entriesList]
    simp only [List.mem_append, List.mem_map, ih, List.mem_cons]
    constructor
    · rintro (⟨kv', h1, rfl⟩ | ⟨t', h1, kv', h2, rfl⟩)
      · exact ⟨t, Or.inl rfl, kv', h1, rfl⟩
      · exact ⟨t', Or.inr h1, kv', h2, rfl⟩
    · rintro ⟨t', ht' | ht', kv', h2, rfl⟩
      · subst ht'
        exact Or.inl ⟨kv', h2, rfl⟩
      · exact Or.inr ⟨t', ht', kv', h2, rfl⟩

theorem entries_mem_iff (f : Bool) (ts : List Transition) (kv : List Nat × Nat) :
    kv ∈ entries (Node.mk f ts) ↔
      (f = true ∧ kv = ([], 0)) ∨
      ∃ t ∈ ts, ∃ kv', kv' ∈ entries t.2.2 ∧
        kv = (t.1 :: kv'.1, t.2.1 + kv'.2) := by
  rw [entries]
  simp only [List.mem_append, entriesList_mem_iff]
  constructor
  · rintro (h | h)
    · left
      by_cases hf : f = true
      · subst hf
        simp at h
        exact ⟨rfl, h⟩
      · simp [hf] at h
    · exact Or.inr h
  · rintro (⟨hf, rfl⟩ | h)
    · subst hf
      simp
    · exact Or.inr h

theorem entries_ne_nil {n : Node} (h : WF n) : entries n ≠ [] := by
  induction n using node_strong_ind with
  | ih n IH =>
    cases n with
    | mk f ts =>
      cases ts with
      | nil =>
        have hf := WF_final_of_empty h rfl
        simp only [Node.isFinal] at hf
        subst hf
        simp [entries, entriesList]
      | cons t ts =>
        have hwt : WF t.2.2 := WF_target h (List.mem_cons_self _ _)
        have hne := IH t.2.2 (sizeOf_target_lt (List.mem_cons_self _ _)) hwt
        rw [entries, entriesList]
        intro hcontra
        rcases List.append_eq_nil.mp hcontra with ⟨_, h2⟩
        rcases List.append_eq_nil.mp h2 with ⟨h3, _⟩
        exact hne (List.map_eq_nil_iff.mp h3)

@[simp] theorem lexLt_cons_same (x : Nat) (xs ys : List Nat) :
    lexLt (x :: xs) (x :: ys) = lexLt xs ys := by
  simp [lexLt]

theorem foldr_max_le_of_mem {x : Nat} {l : List Nat} (h : x ∈ l) :
    x ≤ l.foldr max 0 := by
  induction l with
  | nil => simp at h
  | cons y l ih =>
    rcases List.mem_cons.mp h with rfl | h
    · exact Nat.le_max_left _ _
    · exact Nat.le_trans (ih h) (Nat.le_max_right _ _)

theorem foldr_max_succ_le {l : List Nat} {M : Nat} (hne : l ≠ [])
    (h : ∀ x ∈ l, x + 1 ≤ M) : l.foldr max 0 + 1 ≤ M := by
  induction l with
  | nil => exact absurd rfl hne
  | cons y l ih =>
    cases l with
    | nil =>
      simp only [List.foldr]
      have := h y (List.mem_cons_self _ _)
      omega
    | cons z l' =>
      have h1 := h y (List.mem_cons_self _ _)
      have h2 := ih (by simp) (fun x hx => h x (List.mem_cons_of_mem _ hx))
      simp only [List.foldr] at h2 ⊢
      omega

theorem length_le_maxKeyLen {n : Node} {kv : List Nat × Nat}
    (h : kv ∈ entries n) : kv.1.length ≤ maxKeyLen n := by
  exact foldr_max_le_of_mem (List.mem_map_of_mem _ h)

theorem cons_entry_mem {n : Node} {t : Transition} (ht : t ∈ n.trans)
    {kv' : List Nat × Nat} (h : kv' ∈ entries t.2.2) :
    (t.1 :: kv'.1, t.2.1 + kv'.2) ∈ entries n := by
  cases n with
  | mk f ts =>
    rw [entries_mem_iff]
    exact Or.inr ⟨t, ht, kv', h, rfl⟩

theorem nil_entry_mem {n : Node} (h : n.isFinal = true) : ([], 0) ∈ entries n := by
  cases n with
  | mk f ts =>
    simp only [Node.isFinal] at h
    subst h
    rw [entries_mem_iff]
    exact Or.inl ⟨rfl, rfl⟩

theorem maxKeyLen_child {n : Node} (hwf : WF n) {t : Transition}
    (ht : t ∈ n.trans) : maxKeyLen t.2.2 + 1 ≤ maxKeyLen n := by
  have hwt : WF t.2.2 := WF_target hwf ht
  have hne : entries t.2.2 ≠ [] := entries_ne_nil hwt
  rw [maxKeyLen]
  refine foldr_max_succ_le ?_ ?_
  · intro hcontra
    exact hne (List.map_eq_nil_iff.mp hcontra)
  · intro x hx
    rcases List.mem_map.mp hx with ⟨kv', hkv', rfl⟩
    have := length_le_maxKeyLen (cons_entry_mem ht hkv')
    simpa using this

theorem entriesList_pairwise (ts : List Transition)
    (hsort : List.Pairwise (fun a b : Transition => a.inp < b.inp) ts)
    (hrec : ∀ t ∈ ts, List.Pairwise
      (fun a b : List Nat × Nat => lexLt a.1 b.1 = true) (entries t.2.2)) :
    List.Pairwise (fun a b : List Nat × Nat => lexLt a.1 b.1 = true)
      (entriesList ts) := by
  induction ts with
  | nil => exact List.Pairwise.nil
  | cons t ts ih =>
    rw [entriesList, List.pairwise_append]
    refine ⟨?_, ih (List.pairwise_cons.mp hsort).2
      (fun t' ht' => hrec t' (List.mem_cons_of_mem _ ht')), ?_⟩
    · rw [List.pairwise_map]
      refine (hrec t (List.mem_cons_self _ _)).imp ?_
      intro a b hab
      simpa using hab
    · intro a ha b hb
      rcases List.mem_map.mp ha with ⟨kva, _, rfl⟩
      rcases (entriesList_mem_iff ts b).mp hb with ⟨t', ht', kvb, _, rfl⟩
      exact lexLt_of_head_lt ((List.pairwise_cons.mp hsort).1 t' ht') _ _

/-- Entries of a well-formed node are strictly ascending in lexicographic
order. -/
theorem entries_pairwise {n : Node} (hwf : WF n) :
    List.Pairwise (fun a b : List Nat × Nat => lexLt a.1 b.1 = true) (entries n) := by
  induction n using node_strong_ind with
  | ih n IH =>
    cases n with
    | mk f ts =>
      obtain ⟨hsort, hsub, _⟩ := (WF_mk_iff f ts).mp hwf
      have hgroups := entriesList_pairwise ts hsort (fun t ht =>
        IH t.2.2 (sizeOf_target_lt (show t ∈ (Node.mk f ts).trans from ht))
          (hsub t ht))
      rw [entries, List.pairwise_append]
      refine ⟨?_, hgroups, ?_⟩
      · by_cases hf : f = true
        · subst hf
          simp
        · simp [hf]
      · intro a ha b hb
        by_cases hf : f = true
        · subst hf
          simp only [if_pos] at ha
          simp at ha
          subst ha
          rcases (entriesList_mem_iff ts b).mp hb with ⟨t', _, kvb, _, rfl⟩
          simp
        · simp [hf] at ha

theorem pairwise_key_fun : ∀ {l : List (List Nat × Nat)},
    List.Pairwise (fun a b : List Nat × Nat => lexLt a.1 b.1 = true) l →
    ∀ K o o', (K, o) ∈ l → (K, o') ∈ l → o = o' := by
  intro l hp
  induction hp with
  | nil =>
    intro K o o' h1 _
    simp at h1
  | @cons x l hx hl ih =>
    intro K o o' h1 h2
    rcases List.mem_cons.mp h1 with h1' | h1'
    · rcases List.mem_cons.mp h2 with h2' | h2'
      · have := h1'.trans h2'.symm
        exact congrArg Prod.snd this
      · have := hx _ h2'
        rw [← h1'] at this
        have h3 : lexLt K K = true := by simpa using this
        rw [lexLt_irrefl] at h3
        exact absurd h3 (by simp)
    · rcases List.mem_cons.mp h2 with h2' | h2'
      · have := hx _ h1'
        rw [← h2'] at this
        have h3 : lexLt K K = true := by simpa using this
        rw [lexLt_irrefl] at h3
        exact absurd h3 (by simp)
      · exact ih K o o' h1' h2'

/-- A key determines its offset among the entries of a well-formed node. -/
theorem entries_key_fun {n : Node} (hwf : WF n) {K : List Nat} {o o' : Nat}
    (h1 : (K, o) ∈ entries n) (h2 : (K, o') ∈ entries n) : o = o' :=
  pairwise_key_fun (entries_pairwise hwf) K o o' h1 h2

/-- Distinct transitions of a sorted list carry distinct input bytes. -/
theorem trans_inp_inj : ∀ {l : List Transition},
    List.Pairwise (fun a b : Transition => a.inp < b.inp) l →
    ∀ t ∈ l, ∀ t' ∈ l, t.1 = t'.1 → t = t' := by
  intro l hs
  induction hs with
  | nil =>
    intro t ht
    simp at ht
  | @cons x l hx hl ih =>
    intro t ht t' ht' he
    rcases List.mem_cons.mp ht with rfl | h1
    · rcases List.mem_cons.mp ht' with h2 | h2
      · exact h2.symm
      · have := hx _ h2
        simp only [Transition.inp] at this
        omega
    · rcases List.mem_cons.mp ht' with h2 | h2
      · subst h2
        have := hx _ h1
        simp only [Transition.inp] at this
        omega
      · exact ih t h1 t' h2 he

/-! ## Specification predicates -/

/-- The key `K` is the greatest key at or below the bound `U` among the entries of
`n`, with offset `o`. -/
@[reducible] def IsGreatestLe (n : Node) (U K : List Nat) (o : Nat) : Prop :=
  (K, o) ∈ entries n ∧ keyLe K U = true ∧
  ∀ kv ∈ entries n, keyLe kv.1 U = true → keyLe kv.1 K = true

/-- The key `K` is the greatest key among the entries of `n`, with offset `o`. -/
@[reducible] def IsGreatestEntry (n : Node) (K : List Nat) (o : Nat) : Prop :=
  (K, o) ∈ entries n ∧ ∀ kv ∈ entries n, keyLe kv.1 K = true

/-- The key `K` is the least key among the entries of `n`, with offset `o`. -/
@[reducible] def IsLeastEntry (n : Node) (K : List Nat) (o : Nat) : Prop :=
  (K, o) ∈ entries n ∧ ∀ kv ∈ entries n, keyLe K kv.1 = true

theorem isGreatestLe_unique {n : Node} (hwf : WF n) {U K K' : List Nat}
    {o o' : Nat} (h : IsGreatestLe n U K o) (h' : IsGreatestLe n U K' o') :
    K = K' ∧ o = o' := by
  obtain ⟨hm, hle, hmax⟩ := h
  obtain ⟨hm', hle', hmax'⟩ := h'
  have hK : K = K' :=
    keyLe_antisymm (hmax' (K, o) hm hle) (hmax (K', o') hm' hle')
  subst hK
  exact ⟨rfl, entries_key_fun hwf hm hm'⟩

theorem isGreatestEntry_unique {n : Node} (hwf : WF n) {K K' : List Nat}
    {o o' : Nat} (h : IsGreatestEntry n K o) (h' : IsGreatestEntry n K' o') :
    K = K' ∧ o = o' := by
  obtain ⟨hm, hmax⟩ := h
  obtain ⟨hm', hmax'⟩ := h'
  have hK : K = K' := keyLe_antisymm (hmax' (K, o) hm) (hmax (K', o') hm')
  subst hK
  exact ⟨rfl, entries_key_fun hwf hm hm'⟩

/-- The loop reaches its exit within `upper - lower` iterations: run with
that much fuel it never exhausts the budget and agrees with the unbounded
loop. -/
theorem findLastLeLoopFuel_eq (node : Node) (u : Nat) :
    ∀ fuel lower upper, lower ≤ upper → upper - lower ≤ fuel →
    findLastLeLoopFuel node u lower upper fuel =
      some (findLastLeLoop node u lower upper) := by
  intro fuel
  induction fuel with
  | zero =>
    intro lower upper hlu hf
    have : lower = upper := by omega
    rw [findLastLeLoopFuel, if_pos this, findLastLeLoop,
      dif_neg (by omega : ¬ lower < upper)]
  | succ fuel ih =>
    intro lower upper hlu hf
    by_cases heq : lower = upper
    · rw [findLastLeLoopFuel, if_pos heq, findLastLeLoop,
        dif_neg (by omega : ¬ lower < upper)]
    · have hcond : lower < upper := by omega
      rw [findLastLeLoopFuel, if_neg heq, findLastLeLoop, dif_pos hcond]
      simp only
      by_cases h5 : (node.transition ((lower + upper) / 2)).inp ≤ u
      · rw [if_pos h5, if_pos h5]
        by_cases h6 : (lower + upper) / 2 = node.len - 1
        · rw [if_pos h6, if_pos h6]
        · rw [if_neg h6, if_neg h6]
          by_cases h7 : u < (node.transition ((lower + upper) / 2 + 1)).inp
          · rw [if_pos h7, if_pos h7]
          · rw [if_neg h7, if_neg h7]
            exact ih ((lower + upper) / 2 + 1) upper (by omega) (by omega)
      · rw [if_neg h5, if_neg h5]
        exact ih lower ((lower + upper) / 2) (by omega) (by omega)

/-! ## The recursive descent of `last_le` -/

/-- Per-frame search state of the descent (`LastLeSearch` in the source):
ordering of the chosen key prefix against the same-length bound prefix,
current byte depth, accumulated output sum, and current node. -/
structure LastLeSearch where
  parent_ordering : Ordering
  byte_i : Nat
  offset_sum : Nat
  node : Node

/-- Initial search state at the root. -/
def LastLeSearch.initial (root : Node) : LastLeSearch :=
  { parent_ordering := Ordering.eq, byte_i := 0, offset_sum := 0, node := root }

/-- Advance into transition `t` with an explicitly given ordering. -/
def LastLeSearch.next_with_ordering (s : LastLeSearch) (t : Transition)
    (o : Ordering) : LastLeSearch :=
  { parent_ordering := o, byte_i := s.byte_i + 1,
    offset_sum := s.offset_sum + t.2.1, node := t.2.2 }

/-- Advance into transition `t`, comparing its input byte with the bound byte
at the current depth (every call site has the depth in bounds). -/
def LastLeSearch.next (s : LastLeSearch) (upper_bound : List Nat)
    (t : Transition) : LastLeSearch :=
  s.next_with_ordering t (compare t.1 (upper_bound.getD s.byte_i 0))

/-- The recursive search of `Cache::last_le_recursive`.  The result carries
the found offset (if any) together with the key buffer, whose mutation in the
source is modelled by threading it through the computation; buffer writes out
of bounds and the source's `unreachable!()` arm produce `PRes.panicked`. -/
def Cache.last_le_recursive (upper_bound : List Nat) (state : LastLeSearch)
    (key : List Nat) : PRes (Option Nat × List Nat) :=
  if state.parent_ordering = Ordering.gt then PRes.ok (none, key)
  else
    PRes.bind
      (if hne : state.node.isEmpty = true then PRes.ok (none, key)
       else
        match state.parent_ordering with
        | Ordering.gt => PRes.panicked
        | Ordering.eq =>
          if hb : state.byte_i < upper_bound.length then
            match hf : find_last_le_transition state.node
                (upper_bound.getD state.byte_i 0) with
            | some (t_i, t) =>
              PRes.bind (keySet key state.byte_i t.1) (fun key1 =>
                PRes.bind (Cache.last_le_recursive upper_bound
                    (state.next upper_bound t) key1) (fun r =>
                  match r with
                  | (some o, key2) => PRes.ok (some o, key2)
                  | (none, key2) =>
                    if 0 < t_i then
                      PRes.bind (keySet key2 state.byte_i
                          (state.node.transition (t_i - 1)).1) (fun key3 =>
                        Cache.last_le_recursive upper_bound
                          (state.next_with_ordering
                            (state.node.transition (t_i - 1)) Ordering.lt) key3)
                    else PRes.ok (none, key2)))
            | none => PRes.ok (none, key)
          else PRes.ok (none, key)
        | Ordering.lt =>
          PRes.bind (keySet key state.byte_i
              (state.node.transition (state.node.len - 1)).1) (fun key1 =>
            Cache.last_le_recursive upper_bound
              (state.next_with_ordering
                (state.node.transition (state.node.len - 1)) Ordering.lt) key1))
      (fun rk =>
        PRes.ok (match rk.1 with
          | some o => some o
          | none =>
            if state.node.isFinal then some state.offset_sum else none,
          rk.2))
termination_by sizeOf state.node
decreasing_by
  · have hm := find_last_le_transition_mem hf
    have ht : t ∈ state.node.trans := by
      rw [← hm.2]
      exact transition_mem hm.1
    simp only [LastLeSearch.next, LastLeSearch.next_with_ordering]
    exact sizeOf_target_lt ht
  · have hm := find_last_le_transition_mem hf
    have hlt : t_i - 1 < state.node.len := by
      have := hm.1
      omega
    simp only [LastLeSearch.next_with_ordering]
    exact sizeOf_target_lt (transition_mem hlt)
  · have hlen : 0 < state.node.len := by
      rw [Node.len]
      cases hcase : state.node.trans with
      | nil =>
        exfalso
        apply hne
        rw [Node.isEmpty, hcase]
        rfl
      | cons a l => simp
    simp only [LastLeSearch.next_with_ordering]
    exact sizeOf_target_lt
      (transition_mem (show state.node.len - 1 < state.node.len by omega))

/-- Greatest stored key at or below `upper_bound` (`Cache::last_le`); `N` is
the caller-chosen width of the zero-initialised key buffer. -/
def Cache.last_le (N : Nat) (root : Node) (upper_bound : List Nat) :
    PRes (Option (List Nat × Nat)) :=
  match Cache.last_le_recursive upper_bound (LastLeSearch.initial root)
      (List.replicate N 0) with
  | PRes.panicked => PRes.panicked
  | PRes.ok (offset, key) => PRes.ok (offset.map (fun o => (key, o)))

/-- The walk of `Cache::last`: while the node is not both final and empty,
take the transition with the greatest input byte, write its byte at the
current buffer index and add its output.  A non-final node with no
transitions makes the source underflow `n.len() - 1` and abort; an
out-of-range buffer write aborts likewise. -/
def Cache.lastLoop : Node → Nat → Nat → List Nat → PRes (Nat × Nat × List Nat)
  | n, i, offset, key =>
    if !n.isFinal || !n.isEmpty then
      if hn : n.isEmpty = true then PRes.panicked
      else
        PRes.bind (keySet key i (n.transition (n.len - 1)).1) (fun key1 =>
          Cache.lastLoop (n.transition (n.len - 1)).2.2 (i + 1)
            (offset + (n.transition (n.len - 1)).2.1) key1)
    else PRes.ok (i, offset, key)
termination_by n => sizeOf n
decreasing_by
  have hlen : 0 < n.len := by
    rw [Node.len]
    cases hcase : n.trans with
    | nil =>
      exfalso
      apply hn
      rw [Node.isEmpty, hcase]
      rfl
    | cons a l => simp
  exact sizeOf_target_lt (transition_mem (show n.len - 1 < n.len by omega))

/-- Greatest stored key (`Cache::last`): the rightmost-spine walk, returning
the buffer and the summed offset when the walk wrote exactly `N` bytes and
`none` when it wrote fewer. -/
def Cache.last (N : Nat) (root : Node) : PRes (Option (List Nat × Nat)) :=
  match Cache.lastLoop root 0 0 (List.replicate N 0) with
  | PRes.panicked => PRes.panicked
  | PRes.ok (i, offset, key) =>
      PRes.ok (if i = N then some (key, offset) else none)

/-- Least stored key (`Cache::first`): the head of the ascending stream is
copied into the `N`-byte buffer with `copy_from_slice`, which aborts unless
the lengths match exactly. -/
def Cache.first (N : Nat) (root : Node) : PRes (Option (List Nat × Nat)) :=
  match (entries root).head? with
  | none => PRes.ok none
  | some (k, o) =>
      if k.length = N then PRes.ok (some (k, o)) else PRes.panicked

/-! ## Behaviour of the descent in `Less` mode -/

@[simp] theorem PRes.bind_ok {α β : Type} (a : α) (f : α → PRes β) :
    PRes.bind (PRes.ok a) f = f a := rfl

@[simp] theorem PRes.bind_panicked {α β : Type} (f : α → PRes β) :
    PRes.bind PRes.panicked f = PRes.panicked := rfl

theorem trans_ne_nil_of_not_isEmpty {n : Node} (h : ¬ n.isEmpty = true) :
    n.trans ≠ [] := by
  intro hc
  apply h
  rw [Node.isEmpty, hc]
  rfl

theorem len_pos_of_not_isEmpty {n : Node} (h : ¬ n.isEmpty = true) :
    0 < n.len := by
  have := trans_ne_nil_of_not_isEmpty h
  rw [Node.len]
  cases hcase : n.trans with
  | nil => exact absurd hcase this
  | cons a l => simp

theorem mem_trans_index {n : Node} {t : Transition} (h : t ∈ n.trans) :
    ∃ j, j < n.len ∧ n.transition j = t := by
  rcases List.mem_iff_getElem.mp h with ⟨j, hj, hget⟩
  refine ⟨j, hj, ?_⟩
  rw [Node.transition, List.getD_eq_getElem _ _ hj, hget]

theorem inp_le_last {n : Node}
    (hs : List.Pairwise (fun a b : Transition => a.inp < b.inp) n.trans)
    {t : Transition} (h : t ∈ n.trans) :
    t.1 ≤ (n.transition (n.len - 1)).1 := by
  rcases mem_trans_index h with ⟨j, hj, rfl⟩
  have hlast : n.len - 1 < n.len := by omega
  have := inp_mono hs (show j ≤ n.len - 1 by omega) hlast
  simpa [Transition.inp] using this

theorem entries_leaf (f : Bool) :
    entries (Node.mk f []) = if f then [([], 0)] else [] := by
  rw [entries, entriesList]
  simp

/-- The greatest entry of a node with transitions goes through its greatest
transition. -/
theorem isGreatestEntry_cons {n : Node} (hwf : WF n) (hne : n.trans ≠ [])
    {K' : List Nat} {o' : Nat}
    (hG' : IsGreatestEntry (n.transition (n.len - 1)).2.2 K' o') :
    IsGreatestEntry n ((n.transition (n.len - 1)).1 :: K')
      ((n.transition (n.len - 1)).2.1 + o') := by
  have hlen : 0 < n.len := by
    rw [Node.len]
    cases hcase : n.trans with
    | nil => exact absurd hcase hne
    | cons a l => simp
  have hlast : n.len - 1 < n.len := by omega
  have htl : n.transition (n.len - 1) ∈ n.trans := transition_mem hlast
  have hs := WF_pairwise hwf
  constructor
  · exact cons_entry_mem htl hG'.1
  · intro kv hkv
    cases n with
    | mk f ts =>
      rcases (entries_mem_iff f ts kv).mp hkv with ⟨_, rfl⟩ | ⟨t', ht', kv', hkv', rfl⟩
      · simp
      · have hle : t'.1 ≤ ((Node.mk f ts).transition ((Node.mk f ts).len - 1)).1 :=
          inp_le_last hs ht'
        rcases Nat.lt_or_ge t'.1 ((Node.mk f ts).transition ((Node.mk f ts).len - 1)).1
          with hlt | hge
        · rw [keyLe_cons_cons]
          exact Or.inl hlt
        · have heq : t'.1 = ((Node.mk f ts).transition ((Node.mk f ts).len - 1)).1 := by
            omega
          have : t' = (Node.mk f ts).transition ((Node.mk f ts).len - 1) :=
            trans_inp_inj hs t' ht'
              ((Node.mk f ts).transition ((Node.mk f ts).len - 1)) htl heq
          subst this
          rw [keyLe_cons_cons]
          exact Or.inr ⟨rfl, hG'.2 kv' hkv'⟩

/-- Buffer evolution during the descent: same length, positions below `i`
untouched, and the bytes of `K` present from position `i` on. -/
def BufSpec (i : Nat) (K key key' : List Nat) : Prop :=
  key'.length = key.length ∧
  (∀ j, j < i → key'[j]? = key[j]?) ∧
  (∀ j, j < K.length → key'[i + j]? = K[j]?)

theorem bufSpec_refl (i : Nat) (key : List Nat) : BufSpec i [] key key :=
  ⟨rfl, fun _ _ => rfl, fun j hj => absurd hj (by simp)⟩

/-- One-step unfolding of the descent at a `Greater` frame: prune. -/
theorem lastLe_gt_unfold (U : List Nat) (i os : Nat) (n : Node) (key : List Nat) :
    Cache.last_le_recursive U ⟨Ordering.gt, i, os, n⟩ key = PRes.ok (none, key) := by
  rw [Cache.last_le_recursive]
  rfl

/-- One-step unfolding of the descent at a `Less` frame: take the greatest
transition, or fall back to the final state. -/
theorem lastLe_lt_unfold (U : List Nat) (i os : Nat) (n : Node) (key : List Nat) :
    Cache.last_le_recursive U ⟨Ordering.lt, i, os, n⟩ key =
    PRes.bind
      (if n.isEmpty = true then PRes.ok (none, key)
       else
        PRes.bind (keySet key i (n.transition (n.len - 1)).1) (fun key1 =>
          Cache.last_le_recursive U
            ⟨Ordering.lt, i + 1, os + (n.transition (n.len - 1)).2.1,
              (n.transition (n.len - 1)).2.2⟩ key1))
      (fun rk =>
        PRes.ok (match rk.1 with
          | some o => some o
          | none => if n.isFinal then some os else none,
          rk.2)) := by
  rw [Cache.last_le_recursive]
  rw [if_neg (show ¬ (LastLeSearch.parent_ordering ⟨Ordering.lt, i, os, n⟩ =
    Ordering.gt) from fun h => by simp at h)]
  rfl

/-- One-step unfolding of the descent at an `Equal` frame: take the greatest
transition below the bound byte, backtrack once on failure, or fall back to
the final state. -/
theorem lastLe_eq_unfold (U : List Nat) (i os : Nat) (n : Node) (key : List Nat) :
    Cache.last_le_recursive U ⟨Ordering.eq, i, os, n⟩ key =
    PRes.bind
      (if n.isEmpty = true then PRes.ok (none, key)
       else
        if i < U.length then
          match _hf : find_last_le_transition n (U.getD i 0) with
          | some (t_i, t) =>
            PRes.bind (keySet key i t.1) (fun key1 =>
              PRes.bind (Cache.last_le_recursive U
                  ⟨compare t.1 (U.getD i 0), i + 1, os + t.2.1, t.2.2⟩ key1)
                (fun r =>
                  match r with
                  | (some o, key2) => PRes.ok (some o, key2)
                  | (none, key2) =>
                    if 0 < t_i then
                      PRes.bind (keySet key2 i (n.transition (t_i - 1)).1)
                        (fun key3 =>
                          Cache.last_le_recursive U
                            ⟨Ordering.lt, i + 1,
                              os + (n.transition (t_i - 1)).2.1,
                              (n.transition (t_i - 1)).2.2⟩ key3)
                    else PRes.ok (none, key2)))
          | none => PRes.ok (none, key)
        else PRes.ok (none, key))
      (fun rk =>
        PRes.ok (match rk.1 with
          | some o => some o
          | none => if n.isFinal then some os else none,
          rk.2)) := by
  rw [Cache.last_le_recursive]
  rw [if_neg (show ¬ (LastLeSearch.parent_ordering ⟨Ordering.eq, i, os, n⟩ =
    Ordering.gt) from fun h => by simp at h)]
  rfl

theorem exists_isGreatestEntry : ∀ n : Node, WF n → ∃ K o, IsGreatestEntry n K o := by
  intro n
  induction n using node_strong_ind with
  | ih n IH =>
    intro hwf
    by_cases hnil : n.trans = []
    · have hfin : n.isFinal = true := WF_final_of_empty hwf hnil
      refine ⟨[], 0, nil_entry_mem hfin, ?_⟩
      intro kv hkv
      cases n with
      | mk f ts =>
        simp only [Node.trans] at hnil
        subst hnil
        rw [entries_leaf] at hkv
        by_cases hf2 : f = true
        · subst hf2
          rw [if_pos rfl] at hkv
          simp at hkv
          rw [hkv]
          simp
        · rw [if_neg hf2] at hkv
          simp at hkv
    · have hlen : 0 < n.len := by
        rw [Node.len]
        cases hcase : n.trans with
        | nil => exact absurd hcase hnil
        | cons a l => simp
      have htl : n.transition (n.len - 1) ∈ n.trans :=
        transition_mem (show n.len - 1 < n.len by omega)
      obtain ⟨K', o', hG'⟩ := IH (n.transition (n.len - 1)).2.2
        (sizeOf_target_lt htl) (WF_target hwf htl)
      exact ⟨_, _, isGreatestEntry_cons hwf hnil hG'⟩

theorem exists_cons_entry {n : Node} (hwf : WF n) (hnil : n.trans ≠ []) :
    ∃ b k o, ((b :: k : List Nat), o) ∈ entries n := by
  have hlen : 0 < n.len := by
    rw [Node.len]
    cases hcase : n.trans with
    | nil => exact absurd hcase hnil
    | cons a l => simp
  have ht0 : n.transition 0 ∈ n.trans := transition_mem hlen
  obtain ⟨kv', hkv'⟩ := List.exists_mem_of_ne_nil _ (entries_ne_nil (WF_target hwf ht0))
  exact ⟨(n.transition 0).1, kv'.1, (n.transition 0).2.1 + kv'.2,
    by simpa using cons_entry_mem ht0 (show (kv'.1, kv'.2) ∈ _ by simpa using hkv')⟩

theorem greatest_ne_nil {n : Node} (hwf : WF n) (hnil : n.trans ≠ [])
    {K : List Nat} {o : Nat} (hG : IsGreatestEntry n K o) : K ≠ [] := by
  obtain ⟨b, k, o', hmem⟩ := exists_cons_entry hwf hnil
  have := hG.2 _ hmem
  intro hKnil
  subst hKnil
  simp at this

/-- In `Less` mode the descent finds the greatest entry of the subtree: it
returns its offset added to the running sum and writes its key into the
buffer from the current depth on, or aborts when that walk would leave the
buffer. -/
theorem lastLe_lt_spec :
    ∀ n : Node, WF n → ∀ (U : List Nat) (i os : Nat) (key : List Nat),
    i ≤ key.length →
    ∃ K o, IsGreatestEntry n K o ∧
      ((i + K.length ≤ key.length ∧ ∃ key',
          Cache.last_le_recursive U ⟨Ordering.lt, i, os, n⟩ key =
            PRes.ok (some (os + o), key') ∧ BufSpec i K key key') ∨
       (key.length < i + K.length ∧
          Cache.last_le_recursive U ⟨Ordering.lt, i, os, n⟩ key =
            PRes.panicked)) := by
  intro n
  induction n using node_strong_ind with
  | ih n IH =>
    intro hwf U i os key hik
    rw [lastLe_lt_unfold]
    by_cases hne : n.isEmpty = true
    · have hnil : n.trans = [] := by
        rw [Node.isEmpty, List.isEmpty_iff] at hne
        exact hne
      have hfin : n.isFinal = true := WF_final_of_empty hwf hnil
      refine ⟨[], 0, ⟨nil_entry_mem hfin, ?_⟩,
        Or.inl ⟨by simpa using hik, key, ?_, bufSpec_refl i key⟩⟩
      · intro kv hkv
        cases n with
        | mk f ts =>
          simp only [Node.trans] at hnil
          subst hnil
          rw [entries_leaf] at hkv
          by_cases hf2 : f = true
          · subst hf2
            rw [if_pos rfl] at hkv
            simp at hkv
            rw [hkv]
            simp
          · rw [if_neg hf2] at hkv
            simp at hkv
      · rw [if_pos hne]
        simp [hfin]
    · rw [if_neg hne]
      have hnil : n.trans ≠ [] := trans_ne_nil_of_not_isEmpty hne
      have hlen : 0 < n.len := len_pos_of_not_isEmpty hne
      have htl : n.transition (n.len - 1) ∈ n.trans :=
        transition_mem (show n.len - 1 < n.len by omega)
      by_cases hkey : i < key.length
      · obtain ⟨K', o', hG', hdi⟩ := IH (n.transition (n.len - 1)).2.2
          (sizeOf_target_lt htl) (WF_target hwf htl) U (i + 1)
          (os + (n.transition (n.len - 1)).2.1)
          (key.set i (n.transition (n.len - 1)).1)
          (by rw [List.length_set]; omega)
        refine ⟨_, _, isGreatestEntry_cons hwf hnil hG', ?_⟩
        rw [keySet, if_pos hkey, PRes.bind_ok]
        rcases hdi with ⟨hfit, key2, hrec, hbuf⟩ | ⟨hover, hrec⟩
        · left
          rw [List.length_set] at hfit
          refine ⟨by simp; omega, key2, ?_, ?_⟩
          · rw [hrec, PRes.bind_ok]
            simp [Nat.add_assoc]
          · obtain ⟨hblen, hbpre, hbwr⟩ := hbuf
            rw [List.length_set] at hblen
            refine ⟨hblen, ?_, ?_⟩
            · intro j hj
              rw [hbpre j (by omega), List.getElem?_set]
              rw [if_neg (by omega)]
            · intro j hj
              cases j with
              | zero =>
                have h0 : key2[i + 0]? = (key.set i (n.transition (n.len - 1)).1)[i]? := by
                  have := hbpre i (by omega)
                  simpa using this
                rw [h0, List.getElem?_set, if_pos rfl, if_pos hkey]
                simp
              | succ j =>
                have hidx : i + (j + 1) = (i + 1) + j := by omega
                rw [hidx, hbwr j (by simpa using hj)]
                simp
        · right
          rw [List.length_set] at hover
          refine ⟨by simp; omega, ?_⟩
          rw [hrec]
          simp
      · have hieq : i = key.length := by omega
        obtain ⟨K', o', hG'⟩ := exists_isGreatestEntry
          (n.transition (n.len - 1)).2.2 (WF_target hwf htl)
        refine ⟨_, _, isGreatestEntry_cons hwf hnil hG', Or.inr ⟨by simp; omega, ?_⟩⟩
        rw [keySet, if_neg hkey]
        simp

@[simp] theorem Transition.inp_eq (t : Transition) : t.inp = t.1 := rfl

theorem entries_of_empty {n : Node} (hnil : n.trans = []) :
    entries n = if n.isFinal then [([], 0)] else [] := by
  cases n with
  | mk f ts =>
    simp only [Node.trans] at hnil
    subst hnil
    rw [entries_leaf]
    rfl

theorem entries_cases {n : Node} {kv : List Nat × Nat} (h : kv ∈ entries n) :
    (kv = ([], 0) ∧ n.isFinal = true) ∨
    ∃ t ∈ n.trans, ∃ kv', kv' ∈ entries t.2.2 ∧
      kv = (t.1 :: kv'.1, t.2.1 + kv'.2) := by
  cases n with
  | mk f ts =>
    rcases (entries_mem_iff f ts kv).mp h with ⟨hf, rfl⟩ | h
    · exact Or.inl ⟨rfl, hf⟩
    · exact Or.inr h

theorem nil_entry_final {n : Node} {o : Nat} (h : (([] : List Nat), o) ∈ entries n) :
    n.isFinal = true := by
  rcases entries_cases h with ⟨_, hf⟩ | ⟨t, _, kv', _, heq⟩
  · exact hf
  · exact absurd (congrArg Prod.fst heq) (by simp)

theorem drop_cons_of_lt {U : List Nat} {i : Nat} (h : i < U.length) :
    U.drop i = U.getD i 0 :: U.drop (i + 1) := by
  rw [List.getD_eq_getElem _ _ h]
  exact List.drop_eq_getElem_cons h
theorem lastLe_eq_leaf (U : List Nat) (i os : Nat) (n : Node) (key : List Nat)
    (hne : n.isEmpty = true) :
    Cache.last_le_recursive U ⟨Ordering.eq, i, os, n⟩ key =
    PRes.ok ((if n.isFinal then some os else none), key) := by
  rw [lastLe_eq_unfold, if_pos hne, PRes.bind_ok]

theorem lastLe_eq_nobound (U : List Nat) (i os : Nat) (n : Node) (key : List Nat)
    (hne : ¬ n.isEmpty = true) (hb : ¬ i < U.length) :
    Cache.last_le_recursive U ⟨Ordering.eq, i, os, n⟩ key =
    PRes.ok ((if n.isFinal then some os else none), key) := by
  rw [lastLe_eq_unfold, if_neg hne, if_neg hb, PRes.bind_ok]

theorem lastLe_eq_nofind (U : List Nat) (i os : Nat) (n : Node) (key : List Nat)
    (hne : ¬ n.isEmpty = true) (hb : i < U.length)
    (hfind : find_last_le_transition n (U.getD i 0) = none) :
    Cache.last_le_recursive U ⟨Ordering.eq, i, os, n⟩ key =
    PRes.ok ((if n.isFinal then some os else none), key) := by
  rw [lastLe_eq_unfold, if_neg hne, if_pos hb]
  split
  · next t_i t heq =>
    rw [hfind] at heq
    exact absurd heq (by simp)
  · next heq => rw [PRes.bind_ok]

theorem lastLe_eq_found (U : List Nat) (i os : Nat) (n : Node) (key : List Nat)
    (t_i : Nat) (t : Transition)
    (hne : ¬ n.isEmpty = true) (hb : i < U.length)
    (hfind : find_last_le_transition n (U.getD i 0) = some (t_i, t)) :
    Cache.last_le_recursive U ⟨Ordering.eq, i, os, n⟩ key =
    PRes.bind
      (PRes.bind (keySet key i t.1) (fun key1 =>
        PRes.bind (Cache.last_le_recursive U
            ⟨compare t.1 (U.getD i 0), i + 1, os + t.2.1, t.2.2⟩ key1)
          (fun r =>
            match r with
            | (some o, key2) => PRes.ok (some o, key2)
            | (none, key2) =>
              if 0 < t_i then
                PRes.bind (keySet key2 i (n.transition (t_i - 1)).1)
                  (fun key3 =>
                    Cache.last_le_recursive U
                      ⟨Ordering.lt, i + 1, os + (n.transition (t_i - 1)).2.1,
                        (n.transition (t_i - 1)).2.2⟩ key3)
              else PRes.ok (none, key2))))
      (fun rk =>
        PRes.ok (match rk.1 with
          | some o => some o
          | none => if n.isFinal then some os else none,
          rk.2)) := by
  rw [lastLe_eq_unfold, if_neg hne, if_pos hb]
  split
  · next t_i' t' heq =>
    rw [hfind] at heq
    have h1 : t_i = t_i' := (Prod.mk.injEq _ _ _ _ ▸ Option.some.inj heq).1
    have h2 : t = t' := (Prod.mk.injEq _ _ _ _ ▸ Option.some.inj heq).2
    subst h1
    subst h2
    rfl
  · next heq =>
    rw [hfind] at heq
    exact absurd heq (by simp)


/-- In `Equal` mode the descent either aborts, or returns `none` with no
entry at or below the bound suffix, or returns the offset of the greatest
such entry with its key written into the buffer at the current depth.  It
never aborts when the buffer accommodates both the bound and every stored
key. -/
theorem lastLe_eq_spec :
    ∀ n : Node, WF n → ∀ (U : List Nat) (i os : Nat) (key : List Nat),
    i ≤ key.length →
    (Cache.last_le_recursive U ⟨Ordering.eq, i, os, n⟩ key = PRes.panicked ∨
     ∃ res key',
       Cache.last_le_recursive U ⟨Ordering.eq, i, os, n⟩ key =
         PRes.ok (res, key') ∧
       key'.length = key.length ∧ (∀ j, j < i → key'[j]? = key[j]?) ∧
       ((res = none ∧ ∀ kv ∈ entries n, keyLe kv.1 (U.drop i) = false) ∨
        (∃ K o, res = some (os + o) ∧ IsGreatestLe n (U.drop i) K o ∧
          i + K.length ≤ key.length ∧
          ∀ j, j < K.length → key'[i + j]? = K[j]?))) ∧
    (U.length ≤ key.length → i + maxKeyLen n ≤ key.length →
      Cache.last_le_recursive U ⟨Ordering.eq, i, os, n⟩ key ≠ PRes.panicked) := by
  intro n
  induction n using node_strong_ind with
  | ih n IH =>
    intro hwf U i os key hik
    by_cases hne : n.isEmpty = true
    · have hnil : n.trans = [] := by
        rw [Node.isEmpty, List.isEmpty_iff] at hne
        exact hne
      have hfin := WF_final_of_empty hwf hnil
      have hval := lastLe_eq_leaf U i os n key hne
      rw [if_pos hfin] at hval
      refine ⟨Or.inr ⟨some os, key, hval, rfl, fun j _ => rfl,
        Or.inr ⟨[], 0, by simp, ⟨nil_entry_mem hfin, by simp, ?_⟩,
          by simpa using hik, by simp⟩⟩, fun _ _ => by rw [hval]; simp⟩
      intro kv hkv _
      rw [entries_of_empty hnil, if_pos hfin] at hkv
      simp at hkv
      rw [hkv]
      simp
    · have hnil : n.trans ≠ [] := trans_ne_nil_of_not_isEmpty hne
      have hs := WF_pairwise hwf
      by_cases hb : i < U.length
      · -- the bound still has bytes: consult the greatest LE transition
        have hU : U.drop i = U.getD i 0 :: U.drop (i + 1) := drop_cons_of_lt hb
        rcases hfind : find_last_le_transition n (U.getD i 0) with _ | ⟨t_i, t⟩
        · -- no transition at or below the bound byte
          have hspec := (find_last_le_transition_spec n (U.getD i 0) hs).1 hfind
          have hheads : ∀ t' ∈ n.trans, U.getD i 0 < t'.1 := by
            intro t' ht'
            rcases mem_trans_index ht' with ⟨j, hj, rfl⟩
            simpa using hspec j hj
          have hval := lastLe_eq_nofind U i os n key hne hb hfind
          by_cases hfin : n.isFinal = true
          · rw [if_pos hfin] at hval
            refine ⟨Or.inr ⟨some os, key, hval, rfl, fun j _ => rfl,
              Or.inr ⟨[], 0, by simp, ⟨nil_entry_mem hfin, by simp, ?_⟩,
                by simpa using hik, by simp⟩⟩, fun _ _ => by rw [hval]; simp⟩
            intro kv hkv hle
            rcases entries_cases hkv with ⟨rfl, _⟩ | ⟨t', ht', kv', hkv', rfl⟩
            · simp
            · exfalso
              simp only at hle
              rw [hU, not_keyLe_cons_of_head_gt (hheads t' ht') _ _] at hle
              exact absurd hle (by simp)
          · rw [if_neg hfin] at hval
            refine ⟨Or.inr ⟨none, key, hval, rfl, fun j _ => rfl,
              Or.inl ⟨rfl, ?_⟩⟩, fun _ _ => by rw [hval]; simp⟩
            intro kv hkv
            rcases entries_cases hkv with ⟨rfl, hf⟩ | ⟨t', ht', kv', hkv', rfl⟩
            · exact absurd hf hfin
            · simp only
              rw [hU]
              exact not_keyLe_cons_of_head_gt (hheads t' ht') _ _
        · -- found the greatest transition (t_i, t) with t.1 ≤ bound byte
          obtain ⟨hti_lt, htrans_eq, htinp_le, hmax_idx⟩ :=
            (find_last_le_transition_spec n (U.getD i 0) hs).2 t_i t hfind
          have ht_mem : t ∈ n.trans := htrans_eq ▸ transition_mem hti_lt
          have htinp_le' : t.1 ≤ U.getD i 0 := by simpa using htinp_le
          have hval := lastLe_eq_found U i os n key t_i t hne hb hfind
          by_cases hkey : i < key.length
          · rcases Nat.lt_or_ge t.1 (U.getD i 0) with hcmp | hcmp
            · -- the chosen byte is strictly below the bound byte: Less mode
              have hcompare : compare t.1 (U.getD i 0) = Ordering.lt :=
                Nat.compare_eq_lt.mpr hcmp
              obtain ⟨K', o', hG', hdi⟩ := lastLe_lt_spec t.2.2
                (WF_target hwf ht_mem) U (i + 1) (os + t.2.1) (key.set i t.1)
                (by rw [List.length_set]; omega)
              have hGreat : IsGreatestLe n (U.drop i) (t.1 :: K') (t.2.1 + o') := by
                refine ⟨cons_entry_mem ht_mem hG'.1, ?_, ?_⟩
                · rw [hU, keyLe_cons_cons]
                  exact Or.inl hcmp
                · intro kv hkv hle
                  rcases entries_cases hkv with ⟨rfl, _⟩ | ⟨t'', ht'', kv'', hkv'', rfl⟩
                  · simp
                  · simp only at hle ⊢
                    rw [hU] at hle
                    by_cases hgt : U.getD i 0 < t''.1
                    · rw [not_keyLe_cons_of_head_gt hgt _ _] at hle
                      exact absurd hle (by simp)
                    · rcases mem_trans_index ht'' with ⟨j, hj, hjt⟩
                      have h1 : (n.transition j).inp ≤ U.getD i 0 := by
                        rw [hjt]
                        simpa using Nat.not_lt.mp hgt
                      have hj_le : j ≤ t_i := hmax_idx j hj h1
                      have h2 : t''.1 ≤ t.1 := by
                        have := inp_mono hs hj_le hti_lt
                        rw [hjt, htrans_eq] at this
                        simpa using this
                      rcases Nat.lt_or_ge t''.1 t.1 with hlt2 | hge2
                      · rw [keyLe_cons_cons]
                        exact Or.inl hlt2
                      · have heq2 : t''.1 = t.1 := by omega
                        have ht''t : t'' = t := trans_inp_inj hs t'' ht'' t ht_mem heq2
                        subst ht''t
                        rw [keyLe_cons_cons]
                        exact Or.inr ⟨rfl, hG'.2 kv'' hkv''⟩
              rcases hdi with ⟨hfit, key2, hrec, hbuf⟩ | ⟨hover, hrec⟩
              · have hval2 : Cache.last_le_recursive U ⟨Ordering.eq, i, os, n⟩ key =
                    PRes.ok (some (os + (t.2.1 + o')), key2) := by
                  rw [hval, keySet, if_pos hkey]
                  simp only [PRes.bind_ok]
                  rw [hcompare, hrec]
                  simp [Nat.add_assoc]
                obtain ⟨hblen, hbpre, hbwr⟩ := hbuf
                rw [List.length_set] at hblen hfit
                refine ⟨Or.inr ⟨some (os + (t.2.1 + o')), key2, hval2, hblen,
                  ?_, Or.inr ⟨t.1 :: K', t.2.1 + o', rfl, hGreat, by simp; omega, ?_⟩⟩,
                  fun _ _ => by rw [hval2]; simp⟩
                · intro j hj
                  rw [hbpre j (by omega), List.getElem?_set, if_neg (by omega)]
                · intro j hj
                  cases j with
                  | zero =>
                    have h0 : key2[i + 0]? = (key.set i t.1)[i]? := by
                      have := hbpre i (by omega)
                      simpa using this
                    rw [h0, List.getElem?_set, if_pos rfl, if_pos hkey]
                    simp
                  | succ j =>
                    have hidx : i + (j + 1) = (i + 1) + j := by omega
                    rw [hidx, hbwr j (by simpa using hj)]
                    simp
              · have hval2 : Cache.last_le_recursive U ⟨Ordering.eq, i, os, n⟩ key =
                    PRes.panicked := by
                  rw [hval, keySet, if_pos hkey]
                  simp only [PRes.bind_ok]
                  rw [hcompare, hrec]
                  simp
                refine ⟨Or.inl hval2, fun hU' hM => ?_⟩
                exfalso
                have := length_le_maxKeyLen hGreat.1
                simp at this
                rw [List.length_set] at hover
                omega
            · -- the chosen byte equals the bound byte: Equal mode below
              have heqtu : t.1 = U.getD i 0 := by omega
              have hcompare : compare t.1 (U.getD i 0) = Ordering.eq :=
                Nat.compare_eq_eq.mpr heqtu
              obtain ⟨hIH1, hIH2⟩ := IH t.2.2 (sizeOf_target_lt ht_mem)
                (WF_target hwf ht_mem) U (i + 1) (os + t.2.1) (key.set i t.1)
                (by rw [List.length_set]; omega)
              rcases hIH1 with hpanic | ⟨res', key2, hrec, hlen2, hpre2, hdisj⟩
              · have hval2 : Cache.last_le_recursive U ⟨Ordering.eq, i, os, n⟩ key =
                    PRes.panicked := by
                  rw [hval, keySet, if_pos hkey]
                  simp only [PRes.bind_ok]
                  rw [hcompare, hpanic]
                  simp
                refine ⟨Or.inl hval2, fun hU' hM => ?_⟩
                exfalso
                exact hIH2 (by rw [List.length_set]; omega)
                  (by rw [List.length_set]
                      have := maxKeyLen_child hwf ht_mem
                      omega) hpanic
              · rcases hdisj with ⟨hres_none, hA'⟩ | ⟨K', o', hres_some, hG', hlen', hwr'⟩
                · subst hres_none
                  by_cases ht_i : 0 < t_i
                  · -- single backtrack to the predecessor transition
                    have hpred_lt : t_i - 1 < n.len := by omega
                    have hpred_mem : n.transition (t_i - 1) ∈ n.trans :=
                      transition_mem hpred_lt
                    have hpred_inp : (n.transition (t_i - 1)).1 < t.1 := by
                      have := inp_strictMono hs (show t_i - 1 < t_i by omega) hti_lt
                      rw [htrans_eq] at this
                      simpa using this
                    have hkey2 : i < key2.length := by
                      rw [hlen2, List.length_set]
                      omega
                    obtain ⟨K'', o'', hG'', hdi2⟩ := lastLe_lt_spec
                      (n.transition (t_i - 1)).2.2 (WF_target hwf hpred_mem) U
                      (i + 1) (os + (n.transition (t_i - 1)).2.1)
                      (key2.set i (n.transition (t_i - 1)).1)
                      (by rw [List.length_set]; omega)
                    have hGreat : IsGreatestLe n (U.drop i)
                        ((n.transition (t_i - 1)).1 :: K'')
                        ((n.transition (t_i - 1)).2.1 + o'') := by
                      refine ⟨cons_entry_mem hpred_mem hG''.1, ?_, ?_⟩
                      · rw [hU, keyLe_cons_cons]
                        exact Or.inl (by omega)
                      · intro kv hkv hle
                        rcases entries_cases hkv with ⟨rfl, _⟩ |
                          ⟨t'', ht'', kv'', hkv'', rfl⟩
                        · simp
                        · simp only at hle ⊢
                          rw [hU] at hle
                          by_cases hgt : U.getD i 0 < t''.1
                          · rw [not_keyLe_cons_of_head_gt hgt _ _] at hle
                            exact absurd hle (by simp)
                          · rcases mem_trans_index ht'' with ⟨j, hj, hjt⟩
                            have h1 : (n.transition j).inp ≤ U.getD i 0 := by
                              rw [hjt]
                              simpa using Nat.not_lt.mp hgt
                            have hj_le : j ≤ t_i := hmax_idx j hj h1
                            by_cases hjti : j = t_i
                            · exfalso
                              have ht''t : t'' = t := by
                                rw [← hjt, hjti, htrans_eq]
                              subst ht''t
                              rw [heqtu, keyLe_cons_cons] at hle
                              rcases hle with hlt' | ⟨_, hle'⟩
                              · omega
                              · have := hA' kv'' hkv''
                                rw [hle'] at this
                                exact absurd this (by simp)
                            · have h2 : t''.1 ≤ (n.transition (t_i - 1)).1 := by
                                have := inp_mono hs
                                  (show j ≤ t_i - 1 by omega) hpred_lt
                                rw [hjt] at this
                                simpa using this
                              rcases Nat.lt_or_ge t''.1 (n.transition (t_i - 1)).1
                                with hlt2 | hge2
                              · rw [keyLe_cons_cons]
                                exact Or.inl hlt2
                              · have heq2 : t''.1 = (n.transition (t_i - 1)).1 := by
                                  omega
                                have ht''pred : t'' = n.transition (t_i - 1) :=
                                  trans_inp_inj hs t'' ht'' _ hpred_mem heq2
                                rw [keyLe_cons_cons]
                                refine Or.inr ⟨heq2, hG''.2 kv'' ?_⟩
                                rw [← ht''pred]
                                exact hkv''
                    rcases hdi2 with ⟨hfit2, key4, hrec2, hbuf2⟩ | ⟨hover2, hrec2⟩
                    · have hval2 : Cache.last_le_recursive U ⟨Ordering.eq, i, os, n⟩ key =
                          PRes.ok (some (os + ((n.transition (t_i - 1)).2.1 + o'')),
                            key4) := by
                        rw [hval, keySet, if_pos hkey]
                        simp only [PRes.bind_ok]
                        rw [hcompare, hrec]
                        simp only [PRes.bind_ok]
                        rw [if_pos ht_i, keySet, if_pos hkey2]
                        simp only [PRes.bind_ok]
                        rw [hrec2]
                        simp [Nat.add_assoc]
                      obtain ⟨hblen2, hbpre2, hbwr2⟩ := hbuf2
                      rw [List.length_set, hlen2, List.length_set] at hblen2
                      rw [List.length_set, hlen2, List.length_set] at hfit2
                      refine ⟨Or.inr ⟨some (os + ((n.transition (t_i - 1)).2.1 + o'')),
                        key4, hval2, hblen2, ?_,
                        Or.inr ⟨(n.transition (t_i - 1)).1 :: K'',
                          (n.transition (t_i - 1)).2.1 + o'', rfl, hGreat,
                          by simp; omega, ?_⟩⟩,
                        fun _ _ => by rw [hval2]; simp⟩
                      · intro j hj
                        rw [hbpre2 j (by omega), List.getElem?_set, if_neg (by omega),
                          hpre2 j (by omega), List.getElem?_set, if_neg (by omega)]
                      · intro j hj
                        cases j with
                        | zero =>
                          have h0 : key4[i + 0]? =
                              (key2.set i (n.transition (t_i - 1)).1)[i]? := by
                            have := hbpre2 i (by omega)
                            simpa using this
                          rw [h0, List.getElem?_set, if_pos rfl, if_pos hkey2]
                          simp
                        | succ j =>
                          have hidx : i + (j + 1) = (i + 1) + j := by omega
                          rw [hidx, hbwr2 j (by simpa using hj)]
                          simp
                    · have hval2 : Cache.last_le_recursive U ⟨Ordering.eq, i, os, n⟩ key =
                          PRes.panicked := by
                        rw [hval, keySet, if_pos hkey]
                        simp only [PRes.bind_ok]
                        rw [hcompare, hrec]
                        simp only [PRes.bind_ok]
                        rw [if_pos ht_i, keySet, if_pos hkey2]
                        simp only [PRes.bind_ok]
                        rw [hrec2]
                        simp
                      refine ⟨Or.inl hval2, fun hU' hM => ?_⟩
                      exfalso
                      have := length_le_maxKeyLen hGreat.1
                      simp at this
                      rw [List.length_set, hlen2, List.length_set] at hover2
                      omega
                  · -- no predecessor: fall back to this node's final state
                    have hsub : ∀ t'' ∈ n.trans, ∀ kv'' ∈ entries t''.2.2,
                        keyLe (t''.1 :: kv''.1) (U.drop i) = false := by
                      intro t'' ht'' kv'' hkv''
                      rw [hU]
                      by_cases hgt : U.getD i 0 < t''.1
                      · exact not_keyLe_cons_of_head_gt hgt _ _
                      · rcases mem_trans_index ht'' with ⟨j, hj, hjt⟩
                        have h1 : (n.transition j).inp ≤ U.getD i 0 := by
                          rw [hjt]
                          simpa using Nat.not_lt.mp hgt
                        have hj_le : j ≤ t_i := hmax_idx j hj h1
                        have hj0 : j = 0 := by omega
                        have ht''t : t'' = t := by
                          rw [← hjt, hj0, show (0 : Nat) = t_i by omega, htrans_eq]
                        subst ht''t
                        cases hq : keyLe (t''.1 :: kv''.1)
                            (U.getD i 0 :: U.drop (i + 1))
                        · rfl
                        · exfalso
                          rw [heqtu, keyLe_cons_cons] at hq
                          rcases hq with hlt' | ⟨_, hq'⟩
                          · omega
                          · have := hA' kv'' hkv''
                            rw [hq'] at this
                            exact absurd this (by simp)
                    have hval2 := hval
                    rw [keySet, if_pos hkey] at hval2
                    simp only [PRes.bind_ok] at hval2
                    rw [hcompare, hrec] at hval2
                    simp only [PRes.bind_ok] at hval2
                    rw [if_neg ht_i] at hval2
                    simp only [PRes.bind_ok] at hval2
                    by_cases hfin : n.isFinal = true
                    · rw [if_pos hfin] at hval2
                      refine ⟨Or.inr ⟨some os, key2, hval2, by rw [hlen2, List.length_set],
                        ?_, Or.inr ⟨[], 0, by simp, ⟨nil_entry_mem hfin, by simp, ?_⟩,
                          by simpa using hik, by simp⟩⟩,
                        fun _ _ => by rw [hval2]; simp⟩
                      · intro j hj
                        rw [hpre2 j (by omega), List.getElem?_set, if_neg (by omega)]
                      · intro kv hkv hle
                        rcases entries_cases hkv with ⟨rfl, _⟩ |
                          ⟨t'', ht'', kv'', hkv'', rfl⟩
                        · simp
                        · exfalso
                          simp only at hle
                          rw [hsub t'' ht'' kv'' hkv''] at hle
                          exact absurd hle (by simp)
                    · rw [if_neg hfin] at hval2
                      refine ⟨Or.inr ⟨none, key2, hval2, by rw [hlen2, List.length_set],
                        ?_, Or.inl ⟨rfl, ?_⟩⟩, fun _ _ => by rw [hval2]; simp⟩
                      · intro j hj
                        rw [hpre2 j (by omega), List.getElem?_set, if_neg (by omega)]
                      · intro kv hkv
                        rcases entries_cases hkv with ⟨rfl, hf⟩ |
                          ⟨t'', ht'', kv'', hkv'', rfl⟩
                        · exact absurd hf hfin
                        · simp only
                          exact hsub t'' ht'' kv'' hkv''
                · -- the child found the greatest admissible key
                  subst hres_some
                  have hval2 : Cache.last_le_recursive U ⟨Ordering.eq, i, os, n⟩ key =
                      PRes.ok (some (os + (t.2.1 + o')), key2) := by
                    rw [hval, keySet, if_pos hkey]
                    simp only [PRes.bind_ok]
                    rw [hcompare, hrec]
                    simp [Nat.add_assoc]
                  have hGreat : IsGreatestLe n (U.drop i) (t.1 :: K') (t.2.1 + o') := by
                    refine ⟨cons_entry_mem ht_mem hG'.1, ?_, ?_⟩
                    · rw [hU, keyLe_cons_cons]
                      exact Or.inr ⟨heqtu, hG'.2.1⟩
                    · intro kv hkv hle
                      rcases entries_cases hkv with ⟨rfl, _⟩ |
                        ⟨t'', ht'', kv'', hkv'', rfl⟩
                      · simp
                      · simp only at hle ⊢
                        rw [hU] at hle
                        by_cases hgt : U.getD i 0 < t''.1
                        · rw [not_keyLe_cons_of_head_gt hgt _ _] at hle
                          exact absurd hle (by simp)
                        · rcases Nat.lt_or_ge t''.1 t.1 with hlt2 | hge2
                          · rw [keyLe_cons_cons]
                            exact Or.inl hlt2
                          · have heq2 : t''.1 = t.1 := by omega
                            have ht''t : t'' = t :=
                              trans_inp_inj hs t'' ht'' t ht_mem heq2
                            subst ht''t
                            rw [heqtu, keyLe_cons_cons] at hle
                            rcases hle with hlt' | ⟨_, hle'⟩
                            · omega
                            · rw [keyLe_cons_cons]
                              exact Or.inr ⟨heq2,
                                hG'.2.2 kv'' hkv'' hle'⟩
                  rw [List.length_set] at hlen2 hlen'
                  refine ⟨Or.inr ⟨some (os + (t.2.1 + o')), key2, hval2, hlen2, ?_,
                    Or.inr ⟨t.1 :: K', t.2.1 + o', rfl, hGreat, by simp; omega, ?_⟩⟩,
                    fun _ _ => by rw [hval2]; simp⟩
                  · intro j hj
                    rw [hpre2 j (by omega), List.getElem?_set, if_neg (by omega)]
                  · intro j hj
                    cases j with
                    | zero =>
                      have h0 : key2[i + 0]? = (key.set i t.1)[i]? := by
                        have := hpre2 i (by omega)
                        simpa using this
                      rw [h0, List.getElem?_set, if_pos rfl, if_pos hkey]
                      simp
                    | succ j =>
                      have hidx : i + (j + 1) = (i + 1) + j := by omega
                      rw [hidx, hwr' j (by simpa using hj)]
                      simp
          · -- the buffer is already exhausted: the very first write aborts
            have hval2 : Cache.last_le_recursive U ⟨Ordering.eq, i, os, n⟩ key =
                PRes.panicked := by
              rw [hval, keySet, if_neg hkey]
              simp
            exact ⟨Or.inl hval2, fun hU' _ => by omega⟩
      · -- no bound byte left: only the empty key is admissible
        have hV : U.drop i = [] := List.drop_eq_nil_of_le (by omega)
        have hval := lastLe_eq_nobound U i os n key hne hb
        by_cases hfin : n.isFinal = true
        · rw [if_pos hfin] at hval
          refine ⟨Or.inr ⟨some os, key, hval, rfl, fun j _ => rfl,
            Or.inr ⟨[], 0, by simp, ⟨nil_entry_mem hfin, by simp [hV], ?_⟩,
              by simpa using hik, by simp⟩⟩, fun _ _ => by rw [hval]; simp⟩
          intro kv hkv hle
          rw [hV] at hle
          simp at hle
          rw [hle]
          simp
        · rw [if_neg hfin] at hval
          refine ⟨Or.inr ⟨none, key, hval, rfl, fun j _ => rfl,
            Or.inl ⟨rfl, ?_⟩⟩, fun _ _ => by rw [hval]; simp⟩
          intro kv hkv
          rw [hV]
          rcases entries_cases hkv with ⟨rfl, hf⟩ | ⟨t', ht', kv', hkv', rfl⟩
          · exact absurd hf hfin
          · simp

/-! ## Behaviour of the `last` walk and of `first` -/

/-- The walk of `Cache::last` follows the rightmost spine: it finds the
greatest entry, or aborts when that entry's key does not fit the buffer. -/
theorem lastLoop_spec :
    ∀ n : Node, WF n → ∀ (i os : Nat) (key : List Nat), i ≤ key.length →
    ∃ K o, IsGreatestEntry n K o ∧
      ((i + K.length ≤ key.length ∧ ∃ key',
          Cache.lastLoop n i os key = PRes.ok (i + K.length, os + o, key') ∧
          BufSpec i K key key') ∨
       (key.length < i + K.length ∧
          Cache.lastLoop n i os key = PRes.panicked)) := by
  intro n
  induction n using node_strong_ind with
  | ih n IH =>
    intro hwf i os key hik
    rw [Cache.lastLoop]
    by_cases hne : n.isEmpty = true
    · have hnil : n.trans = [] := by
        rw [Node.isEmpty, List.isEmpty_iff] at hne
        exact hne
      have hfin : n.isFinal = true := WF_final_of_empty hwf hnil
      rw [if_neg (by rw [hne, hfin]; simp)]
      refine ⟨[], 0, ⟨nil_entry_mem hfin, ?_⟩,
        Or.inl ⟨by simpa using hik, key, by simp, bufSpec_refl i key⟩⟩
      intro kv hkv
      rw [entries_of_empty hnil, if_pos hfin] at hkv
      simp at hkv
      rw [hkv]
      simp
    · have hnil : n.trans ≠ [] := trans_ne_nil_of_not_isEmpty hne
      have hlen : 0 < n.len := len_pos_of_not_isEmpty hne
      have hcond : (!n.isFinal || !n.isEmpty) = true := by
        have : n.isEmpty = false := by
          cases h : n.isEmpty
          · rfl
          · exact absurd h hne
        rw [this]
        simp
      rw [if_pos hcond, dif_neg hne]
      have htl : n.transition (n.len - 1) ∈ n.trans :=
        transition_mem (show n.len - 1 < n.len by omega)
      by_cases hkey : i < key.length
      · obtain ⟨K', o', hG', hdi⟩ := IH (n.transition (n.len - 1)).2.2
          (sizeOf_target_lt htl) (WF_target hwf htl) (i + 1)
          (os + (n.transition (n.len - 1)).2.1)
          (key.set i (n.transition (n.len - 1)).1)
          (by rw [List.length_set]; omega)
        refine ⟨_, _, isGreatestEntry_cons hwf hnil hG', ?_⟩
        rw [keySet, if_pos hkey, PRes.bind_ok]
        rcases hdi with ⟨hfit, key2, hrec, hbuf⟩ | ⟨hover, hrec⟩
        · left
          rw [List.length_set] at hfit
          refine ⟨by simp; omega, key2, ?_, ?_⟩
          · rw [hrec]
            have h1 : (i + 1) + K'.length = i + (K'.length + 1) := by omega
            have h2 : (os + (n.transition (n.len - 1)).2.1) + o' =
                os + ((n.transition (n.len - 1)).2.1 + o') := by omega
            rw [h1, h2]
            simp
          · obtain ⟨hblen, hbpre, hbwr⟩ := hbuf
            rw [List.length_set] at hblen
            refine ⟨hblen, ?_, ?_⟩
            · intro j hj
              rw [hbpre j (by omega), List.getElem?_set, if_neg (by omega)]
            · intro j hj
              cases j with
              | zero =>
                have h0 : key2[i + 0]? =
                    (key.set i (n.transition (n.len - 1)).1)[i]? := by
                  have := hbpre i (by omega)
                  simpa using this
                rw [h0, List.getElem?_set, if_pos rfl, if_pos hkey]
                simp
              | succ j =>
                have hidx : i + (j + 1) = (i + 1) + j := by omega
                rw [hidx, hbwr j (by simpa using hj)]
                simp
        · right
          rw [List.length_set] at hover
          refine ⟨by simp; omega, ?_⟩
          rw [hrec]
      · have hieq : i = key.length := by omega
        obtain ⟨K', o', hG'⟩ := exists_isGreatestEntry
          (n.transition (n.len - 1)).2.2 (WF_target hwf htl)
        refine ⟨_, _, isGreatestEntry_cons hwf hnil hG',
          Or.inr ⟨by simp; omega, ?_⟩⟩
        rw [keySet, if_neg hkey]
        simp

/-- A store with no entries drives the `last` walk into the length underflow
of `n.len() - 1` (or eventually reaches it), so the walk aborts. -/
theorem lastLoop_empty :
    ∀ n : Node, entries n = [] → ∀ (i os : Nat) (key : List Nat),
    Cache.lastLoop n i os key = PRes.panicked := by
  intro n
  induction n using node_strong_ind with
  | ih n IH =>
    intro hE i os key
    have hfin : n.isFinal = false := by
      cases h : n.isFinal
      · rfl
      · have := nil_entry_mem h
        rw [hE] at this
        simp at this
    rw [Cache.lastLoop]
    rw [if_pos (by rw [hfin]; simp)]
    by_cases hne : n.isEmpty = true
    · rw [dif_pos hne]
    · rw [dif_neg hne]
      have hlen : 0 < n.len := len_pos_of_not_isEmpty hne
      have htl : n.transition (n.len - 1) ∈ n.trans :=
        transition_mem (show n.len - 1 < n.len by omega)
      have hchild : entries (n.transition (n.len - 1)).2.2 = [] := by
        cases hc : entries (n.transition (n.len - 1)).2.2 with
        | nil => rfl
        | cons kv l =>
          exfalso
          have : (((n.transition (n.len - 1)).1 :: kv.1,
              (n.transition (n.len - 1)).2.1 + kv.2)) ∈ entries n :=
            cons_entry_mem htl (by rw [hc]; exact List.mem_cons_self _ _)
          rw [hE] at this
          simp at this
      rw [keySet]
      by_cases hkey : i < key.length
      · rw [if_pos hkey, PRes.bind_ok]
        exact IH (n.transition (n.len - 1)).2.2 (sizeOf_target_lt htl) hchild _ _ _
      · rw [if_neg hkey]
        simp

/-- The take helper: a buffer whose first bytes agree with `K` has `K` as its
`K.length`-long front. -/
theorem take_eq_of_getElem? {l K : List Nat} (hlen : K.length ≤ l.length)
    (h : ∀ j, j < K.length → l[j]? = K[j]?) : l.take K.length = K := by
  apply List.ext_getElem?
  intro m
  by_cases hm : m < K.length
  · rw [List.getElem?_take, if_pos hm, h m hm]
  · rw [List.getElem?_take, if_neg hm]
    symm
    exact List.getElem?_eq_none_iff.mpr (by omega)

/-- Method `Cache::last` returns the greatest entry when its key has exactly the
buffer width, `none` when it is shorter, and aborts when it is longer. -/
theorem last_spec {root : Node} (hwf : WF root) {K : List Nat} {o : Nat}
    (hG : IsGreatestEntry root K o) (N : Nat) :
    Cache.last N root =
      if K.length = N then PRes.ok (some (K, o))
      else if K.length < N then PRes.ok none
      else PRes.panicked := by
  obtain ⟨K', o', hG', hdi⟩ := lastLoop_spec root hwf 0 0 (List.replicate N 0)
    (by simp)
  obtain ⟨hKeq, hoeq⟩ := isGreatestEntry_unique hwf hG hG'
  subst hKeq
  subst hoeq
  rcases hdi with ⟨hfit, key', hrec, hbuf⟩ | ⟨hover, hrec⟩
  · rw [List.length_replicate] at hfit
    obtain ⟨hblen, _, hbwr⟩ := hbuf
    rw [List.length_replicate] at hblen
    rw [Cache.last, hrec]
    show PRes.ok (if 0 + K.length = N then some (key', 0 + o) else none) = _
    simp only [Nat.zero_add]
    by_cases hKN : K.length = N
    · have hkey' : key' = K := by
        have h1 : key'.take K.length = K :=
          take_eq_of_getElem? (by omega) (fun j hj => by
            have := hbwr j hj
            simpa using this)
        rw [← h1, hKN, ← hblen, List.take_length]
      rw [if_pos hKN, if_pos hKN, hkey']
    · rw [if_neg hKN, if_neg hKN, if_pos (by omega)]
  · rw [List.length_replicate] at hover
    rw [Cache.last, hrec]
    rw [if_neg (by omega), if_neg (by omega)]

/-- The head of the ascending entry stream is the least entry. -/
theorem head_eq_least {root : Node} (hwf : WF root) {K : List Nat} {o : Nat}
    (hL : IsLeastEntry root K o) : (entries root).head? = some (K, o) := by
  cases hE : entries root with
  | nil =>
    have := hL.1
    rw [hE] at this
    simp at this
  | cons x l =>
    have hp := entries_pairwise hwf
    rw [hE] at hp
    have hmem := hL.1
    rw [hE] at hmem
    rcases List.mem_cons.mp hmem with h1 | h1
    · rw [← h1]
      rfl
    · exfalso
      have hxl : lexLt x.1 K = true := by
        have := (List.pairwise_cons.mp hp).1 (K, o) h1
        simpa using this
      have hKx : keyLe K x.1 = true := hL.2 x (by rw [hE]; exact List.mem_cons_self _ _)
      rw [not_keyLe_of_lexLt hxl] at hKx
      exact absurd hKx (by simp)

/-- Method `Cache::first` returns the least entry when the width matches its key. -/
theorem first_spec {root : Node} (hwf : WF root) {K : List Nat} {o : Nat}
    (hL : IsLeastEntry root K o) :
    Cache.first K.length root = PRes.ok (some (K, o)) := by
  rw [Cache.first, head_eq_least hwf hL]
  simp

/-- Method `Cache::first` returns `none` on a store with no entries. -/
theorem first_empty {n : Node} (hE : entries n = []) (N : Nat) :
    Cache.first N n = PRes.ok none := by
  rw [Cache.first, hE]
  rfl

/-! ## Top-level behaviour of `last_le` -/

@[simp] theorem LastLeSearch.initial_eq (root : Node) :
    LastLeSearch.initial root = ⟨Ordering.eq, 0, 0, root⟩ := rfl

/-- A nonempty admissible set has a greatest element (over any entry list). -/
theorem exists_greatest_le :
    ∀ (l : List (List Nat × Nat)) (U : List Nat),
    (∃ kv ∈ l, keyLe kv.1 U = true) →
    ∃ kv ∈ l, keyLe kv.1 U = true ∧
      ∀ kv' ∈ l, keyLe kv'.1 U = true → keyLe kv'.1 kv.1 = true := by
  intro l
  induction l with
  | nil =>
    intro U h
    simp at h
  | cons x l ih =>
    intro U h
    by_cases hx : keyLe x.1 U = true
    · by_cases hrest : ∃ kv ∈ l, keyLe kv.1 U = true
      · obtain ⟨m, hm, hmU, hmax⟩ := ih U hrest
        rcases keyLe_total x.1 m.1 with hc | hc
        · refine ⟨m, List.mem_cons_of_mem _ hm, hmU, ?_⟩
          intro kv' hkv' hle
          rcases List.mem_cons.mp hkv' with rfl | hkv'
          · exact hc
          · exact hmax kv' hkv' hle
        · refine ⟨x, List.mem_cons_self _ _, hx, ?_⟩
          intro kv' hkv' hle
          rcases List.mem_cons.mp hkv' with rfl | hkv'
          · simp
          · exact keyLe_trans (hmax kv' hkv' hle) hc
      · refine ⟨x, List.mem_cons_self _ _, hx, ?_⟩
        intro kv' hkv' hle
        rcases List.mem_cons.mp hkv' with rfl | hkv'
        · simp
        · exact absurd ⟨kv', hkv', hle⟩ hrest
    · obtain ⟨kv0, hkv0, hkv0U⟩ := h
      rcases List.mem_cons.mp hkv0 with rfl | hkv0'
      · exact absurd hkv0U hx
      · obtain ⟨m, hm, hmU, hmax⟩ := ih U ⟨kv0, hkv0', hkv0U⟩
        refine ⟨m, List.mem_cons_of_mem _ hm, hmU, ?_⟩
        intro kv' hkv' hle
        rcases List.mem_cons.mp hkv' with rfl | hkv'
        · exact absurd hle hx
        · exact hmax kv' hkv' hle

/-- When the buffer accommodates the bound and the longest key and no stored
key is at or below the bound, `last_le` returns `none`. -/
theorem last_le_none_spec {root : Node} (hwf : WF root) {U : List Nat} {N : Nat}
    (hU : U.length ≤ N) (hM : maxKeyLen root ≤ N)
    (hA : ∀ kv ∈ entries root, keyLe kv.1 U = false) :
    Cache.last_le N root U = PRes.ok none := by
  obtain ⟨h1, h2⟩ := lastLe_eq_spec root hwf U 0 0 (List.replicate N 0) (by simp)
  rcases h1 with hpanic | ⟨res, key', hrec, _, _, hdisj⟩
  · exact absurd hpanic (h2 (by simpa using hU) (by simpa using hM))
  · rcases hdisj with ⟨rfl, _⟩ | ⟨K, o, rfl, hG, _, _⟩
    · rw [Cache.last_le, LastLeSearch.initial_eq, hrec]
      rfl
    · exfalso
      have := hA (K, o) hG.1
      have h3 := hG.2.1
      simp only [List.drop_zero] at h3
      rw [this] at h3
      exact absurd h3 (by simp)

/-- When the buffer accommodates the bound and the longest key, `last_le`
returns the greatest admissible entry's offset, and the buffer begins with
its key. -/
theorem last_le_some_spec {root : Node} (hwf : WF root) {U : List Nat} {N : Nat}
    {K : List Nat} {o : Nat} (hU : U.length ≤ N) (hM : maxKeyLen root ≤ N)
    (hG : IsGreatestLe root U K o) :
    ∃ buf, Cache.last_le N root U = PRes.ok (some (buf, o)) ∧
      buf.length = N ∧ buf.take K.length = K := by
  obtain ⟨h1, h2⟩ := lastLe_eq_spec root hwf U 0 0 (List.replicate N 0) (by simp)
  rcases h1 with hpanic | ⟨res, key', hrec, hlen, _, hdisj⟩
  · exact absurd hpanic (h2 (by simpa using hU) (by simpa using hM))
  · rcases hdisj with ⟨rfl, hA⟩ | ⟨K', o', rfl, hG', hfit, hwr⟩
    · exfalso
      have := hA (K, o) hG.1
      have h3 := hG.2.1
      rw [List.drop_zero] at this
      rw [this] at h3
      exact absurd h3 (by simp)
    · rw [List.drop_zero] at hG'
      obtain ⟨hKeq, hoeq⟩ := isGreatestLe_unique hwf hG hG'
      subst hKeq
      subst hoeq
      rw [List.length_replicate] at hlen hfit
      refine ⟨key', ?_, hlen, ?_⟩
      · rw [Cache.last_le, LastLeSearch.initial_eq, hrec]
        simp
      · exact take_eq_of_getElem? (by omega) (fun j hj => by
          have := hwr j hj
          simpa using this)

/-- Whenever the greatest admissible key is longer than the buffer, `last_le`
aborts (the walk to that key writes past the buffer end). -/
theorem last_le_panic_of_long {root : Node} (hwf : WF root) {U : List Nat}
    {N : Nat} {K : List Nat} {o : Nat} (hG : IsGreatestLe root U K o)
    (hlong : N < K.length) :
    Cache.last_le N root U = PRes.panicked := by
  obtain ⟨h1, _⟩ := lastLe_eq_spec root hwf U 0 0 (List.replicate N 0) (by simp)
  rcases h1 with hpanic | ⟨res, key', hrec, hlen, _, hdisj⟩
  · rw [Cache.last_le, LastLeSearch.initial_eq, hpanic]
  · exfalso
    rcases hdisj with ⟨rfl, hA⟩ | ⟨K', o', rfl, hG', hfit, _⟩
    · have := hA (K, o) hG.1
      have h3 := hG.2.1
      rw [List.drop_zero] at this
      rw [this] at h3
      exact absurd h3 (by simp)
    · rw [List.drop_zero] at hG'
      obtain ⟨hKeq, _⟩ := isGreatestLe_unique hwf hG hG'
      subst hKeq
      rw [List.length_replicate] at hfit
      omega

/-! ## The builder (`src/builder.rs`) -/

/-- State of `FileBuilder`: committed index entries, bytes written to the
value sink, and the two cursors.  The external FST map builder and the
buffered value writer are modelled by the entry list and the byte list. -/
structure FileBuilder where
  map_entries : List (List Nat × Nat)
  value_bytes : List Nat
  value_cursor : Nat
  committed_value_cursor : Nat
deriving DecidableEq

/-- Modelled from the spec: the external FST map builder's `insert` appends
the pair when the key is strictly greater than the previously inserted key
and fails with an out-of-order or duplicate-key error otherwise, leaving its
state unchanged. -/
def mapBuilderInsert (committed : List (List Nat × Nat)) (key : List Nat)
    (offset : Nat) : Except Unit (List (List Nat × Nat)) :=
  match committed.getLast? with
  | none => Except.ok (committed ++ [(key, offset)])
  | some (k, _) =>
      if lexLt k key then Except.ok (committed ++ [(key, offset)])
      else Except.error ()

/-- Constructor `FileBuilder::new`: both cursors start at zero. -/
def FileBuilder.new : FileBuilder :=
  { map_entries := [], value_bytes := [], value_cursor := 0,
    committed_value_cursor := 0 }

/-- Method `FileBuilder::append_value_bytes`: write the chunk to the value sink and
advance the appended cursor by its length. -/
def FileBuilder.append_value_bytes (b : FileBuilder) (value : List Nat) :
    Except Unit Unit × FileBuilder :=
  (Except.ok (),
    { map_entries := b.map_entries, value_bytes := b.value_bytes ++ value,
      value_cursor := b.value_cursor + value.length,
      committed_value_cursor := b.committed_value_cursor })

/-- Method `FileBuilder::commit_entry`: insert `(key, committed)` into the index,
then promote the committed cursor to the appended cursor; the `?` operator
returns the error before the cursor update. -/
def FileBuilder.commit_entry (b : FileBuilder) (key : List Nat) :
    Except Unit Unit × FileBuilder :=
  match mapBuilderInsert b.map_entries key b.committed_value_cursor with
  | Except.error e => (Except.error e, b)
  | Except.ok m =>
      (Except.ok (),
        { map_entries := m, value_bytes := b.value_bytes,
          value_cursor := b.value_cursor,
          committed_value_cursor := b.value_cursor })

/-- Method `FileBuilder::insert`: append the value bytes, then commit the key. -/
def FileBuilder.insert (b : FileBuilder) (key value : List Nat) :
    Except Unit Unit × FileBuilder :=
  match (FileBuilder.append_value_bytes b value).1 with
  | Except.error e => (Except.error e, (FileBuilder.append_value_bytes b value).2)
  | Except.ok _ => FileBuilder.commit_entry (FileBuilder.append_value_bytes b value).2 key

/-- One builder call. -/
inductive BuilderOp : Type where
  | append : List Nat → BuilderOp
  | commit : List Nat → BuilderOp
  | insertKV : List Nat → List Nat → BuilderOp

/-- Run one builder call. -/
def runOp (b : FileBuilder) : BuilderOp → Except Unit Unit × FileBuilder
  | BuilderOp.append v => FileBuilder.append_value_bytes b v
  | BuilderOp.commit k => FileBuilder.commit_entry b k
  | BuilderOp.insertKV k v => FileBuilder.insert b k v

/-- Builder states reachable from `new` by successful calls. -/
inductive Reachable : FileBuilder → Prop where
  | init : Reachable FileBuilder.new
  | step : ∀ b op b', Reachable b → runOp b op = (Except.ok (), b') →
      Reachable b'

/-- Offsets as partial sums of the per-entry value lengths. -/
def partialSums (lens : List Nat) : List Nat :=
  (List.range lens.length).map (fun j => (lens.take j).sum)

theorem partialSums_append (lens : List Nat) (x : Nat) :
    partialSums (lens ++ [x]) = partialSums lens ++ [lens.sum] := by
  rw [partialSums, partialSums]
  have hlen : (lens ++ [x]).length = lens.length + 1 := by simp
  rw [hlen, List.range_succ, List.map_append]
  congr 1
  · apply List.map_congr_left
    intro j hj
    rw [List.mem_range] at hj
    rw [List.take_append_of_le_length (by omega)]
  · simp

/-- The method `insert` is the sequential composition of `append_value_bytes` and
`commit_entry`. -/
theorem insert_decomp (b : FileBuilder) (key value : List Nat) :
    FileBuilder.insert b key value =
      FileBuilder.commit_entry (FileBuilder.append_value_bytes b value).2 key := rfl

/-- A successful `commit_entry` appends `(key, committed)` to the index and
promotes the committed cursor. -/
theorem commit_entry_ok {b : FileBuilder} {key : List Nat} {b' : FileBuilder}
    (h : FileBuilder.commit_entry b key = (Except.ok (), b')) :
    b'.map_entries = b.map_entries ++ [(key, b.committed_value_cursor)] ∧
    b'.value_bytes = b.value_bytes ∧
    b'.value_cursor = b.value_cursor ∧
    b'.committed_value_cursor = b.value_cursor := by
  rw [FileBuilder.commit_entry] at h
  cases hins : mapBuilderInsert b.map_entries key b.committed_value_cursor with
  | error e =>
    rw [hins] at h
    exact absurd (congrArg Prod.fst h) (by simp)
  | ok m =>
    rw [hins] at h
    have hmval : m = b.map_entries ++ [(key, b.committed_value_cursor)] := by
      rw [mapBuilderInsert] at hins
      cases hlast : b.map_entries.getLast? with
      | none =>
        rw [hlast] at hins
        exact (Except.ok.inj hins).symm
      | some kv =>
        rw [hlast] at hins
        obtain ⟨k0, o0⟩ := kv
        have hins2 : (if lexLt k0 key = true then
            Except.ok (b.map_entries ++ [(key, b.committed_value_cursor)])
          else (Except.error () : Except Unit (List (List Nat × Nat)))) =
            Except.ok m := hins
        by_cases hord : lexLt k0 key = true
        · rw [if_pos hord] at hins2
          exact (Except.ok.inj hins2).symm
        · rw [if_neg hord] at hins2
          exact absurd hins2 (by simp)
    have hb' := congrArg Prod.snd h
    simp only at hb'
    rw [← hb', ← hmval]
    exact ⟨rfl, rfl, rfl, rfl⟩

/-- A failing `commit_entry` leaves the builder state unchanged: the error
propagates before the cursor update. -/
theorem commit_entry_error {b : FileBuilder} {key : List Nat}
    {e : Unit} {b' : FileBuilder}
    (h : FileBuilder.commit_entry b key = (Except.error e, b')) : b' = b := by
  rw [FileBuilder.commit_entry] at h
  cases hins : mapBuilderInsert b.map_entries key b.committed_value_cursor with
  | error e' =>
    rw [hins] at h
    exact (congrArg Prod.snd h).symm
  | ok m =>
    rw [hins] at h
    exact absurd (congrArg Prod.fst h) (by simp)

/-- Reachable builder states record, for each committed entry, the total
length of all value bytes appended for earlier entries; the committed cursor
is the total committed length and the appended cursor additionally counts
the pending bytes, which fill the value sink. -/
theorem builder_invariant : ∀ b : FileBuilder, Reachable b →
    ∃ lens pending,
      b.map_entries.map (fun e => e.2) = partialSums lens ∧
      b.committed_value_cursor = lens.sum ∧
      b.value_cursor = lens.sum + pending ∧
      b.value_bytes.length = lens.sum + pending := by
  intro b hb
  induction hb with
  | init => exact ⟨[], 0, rfl, rfl, rfl, rfl⟩
  | step b op b' _ hstep ih =>
    obtain ⟨lens, pending, h1, h2, h3, h4⟩ := ih
    have hcommit : ∀ (k : List Nat) (bmid : FileBuilder) (pend : Nat),
        FileBuilder.commit_entry bmid k = (Except.ok (), b') →
        bmid.map_entries.map (fun e => e.2) = partialSums lens →
        bmid.committed_value_cursor = lens.sum →
        bmid.value_cursor = lens.sum + pend →
        bmid.value_bytes.length = lens.sum + pend →
        ∃ lens' pending',
          b'.map_entries.map (fun e => e.2) = partialSums lens' ∧
          b'.committed_value_cursor = lens'.sum ∧
          b'.value_cursor = lens'.sum + pending' ∧
          b'.value_bytes.length = lens'.sum + pending' := by
      intro k bmid pend hc hm hcv hvc hvb
      obtain ⟨hf1, hf2, hf3, hf4⟩ := commit_entry_ok hc
      refine ⟨lens ++ [pend], 0, ?_, ?_, ?_, ?_⟩
      · rw [hf1, List.map_append, hm, hcv, partialSums_append]
        simp
      · rw [hf4, hvc, List.sum_append]
        simp
      · rw [hf3, hvc, List.sum_append]
        simp
      · rw [hf2, hvb, List.sum_append]
        simp
    cases op with
    | append v =>
      have hb' := congrArg Prod.snd hstep
      rw [runOp, FileBuilder.append_value_bytes] at hb'
      simp only at hb'
      rw [← hb']
      exact ⟨lens, pending + v.length, h1, h2,
        by simp only [h3]; omega,
        by simp only [List.length_append, h4]; omega⟩
    | commit k =>
      rw [runOp] at hstep
      exact hcommit k b pending hstep h1 h2 h3 h4
    | insertKV k v =>
      rw [runOp, insert_decomp] at hstep
      refine hcommit k (FileBuilder.append_value_bytes b v).2
        (pending + v.length) hstep ?_ ?_ ?_ ?_ <;>
        simp only [FileBuilder.append_value_bytes]
      · exact h1
      · exact h2
      · simp only [h3]
        omega
      · simp only [List.length_append, h4]
        omega

/-- The committed cursor never exceeds the appended cursor on reachable
states. -/
theorem cursor_invariant {b : FileBuilder} (hb : Reachable b) :
    b.committed_value_cursor ≤ b.value_cursor := by
  obtain ⟨lens, pending, _, h2, h3, _⟩ := builder_invariant b hb
  omega

/-- No builder call ever decreases either cursor (from a reachable state). -/
theorem cursor_monotone {b : FileBuilder} (hb : Reachable b) (op : BuilderOp)
    {r : Except Unit Unit} {b' : FileBuilder} (hstep : runOp b op = (r, b')) :
    b.value_cursor ≤ b'.value_cursor ∧
    b.committed_value_cursor ≤ b'.committed_value_cursor := by
  have hinv := cursor_invariant hb
  cases op with
  | append v =>
    have hb' := congrArg Prod.snd hstep
    rw [runOp, FileBuilder.append_value_bytes] at hb'
    simp only at hb'
    rw [← hb']
    simp
  | commit k =>
    rw [runOp] at hstep
    cases r with
    | error e =>
      rw [commit_entry_error hstep]
      exact ⟨Nat.le_refl _, Nat.le_refl _⟩
    | ok u =>
      obtain ⟨_, _, hf3, hf4⟩ := commit_entry_ok hstep
      rw [hf3, hf4]
      exact ⟨Nat.le_refl _, hinv⟩
  | insertKV k v =>
    rw [runOp, insert_decomp] at hstep
    have hmid : (FileBuilder.append_value_bytes b v).2.value_cursor =
        b.value_cursor + v.length := rfl
    have hmid2 : (FileBuilder.append_value_bytes b v).2.committed_value_cursor =
        b.committed_value_cursor := rfl
    cases r with
    | error e =>
      rw [commit_entry_error hstep, hmid, hmid2]
      exact ⟨by omega, Nat.le_refl _⟩
    | ok u =>
      obtain ⟨_, _, hf3, hf4⟩ := commit_entry_ok hstep
      rw [hf3, hf4, hmid]
      exact ⟨by omega, by omega⟩

/-! ## Concrete example stores -/

/-- A final node with no transitions. -/
def exLeaf : Node := Node.mk true []

/-- Inner node of `exA` after the prefix `[2, 2]`. -/
def exA22 : Node := Node.mk false [(2, 0, exLeaf)]

/-- Inner node of `exA` after the prefix `[2]`. -/
def exA2 : Node := Node.mk false [(2, 0, exA22)]

/-- Store with keys `[1]` (offset 5) and `[2, 2, 2]` (offset 12). -/
def exA : Node := Node.mk false [(1, 5, exLeaf), (2, 12, exA2)]

theorem exA_find_root : find_last_le_transition exA 2 = some (1, (2, 12, exA2)) := by
  simp [find_last_le_transition, findLastLeLoop, Node.transition, Node.len,
    exA, exA2, exA22, exLeaf, Transition.inp]

theorem exA_find_2 : find_last_le_transition exA2 2 = some (0, (2, 0, exA22)) := by
  simp [find_last_le_transition, findLastLeLoop, Node.transition, Node.len,
    exA2, exA22, exLeaf, Transition.inp]

theorem exA_find_22 : find_last_le_transition exA22 1 = none := by
  simp [find_last_le_transition, findLastLeLoop, Node.transition, Node.len,
    exA22, exLeaf, Transition.inp]

theorem exA_eval_22 :
    Cache.last_le_recursive [2, 2, 1] ⟨Ordering.eq, 2, 12, exA22⟩ [2, 2, 0] =
      PRes.ok (none, [2, 2, 0]) := by
  rw [lastLe_eq_nofind [2, 2, 1] 2 12 exA22 [2, 2, 0] (by decide) (by decide)
    (by rw [show [2, 2, 1].getD 2 0 = 1 from rfl]; exact exA_find_22)]
  rfl

theorem exA_eval_lt_leaf :
    Cache.last_le_recursive [2, 2, 1] ⟨Ordering.lt, 1, 5, exLeaf⟩ [1, 2, 0] =
      PRes.ok (some 5, [1, 2, 0]) := by
  rw [lastLe_lt_unfold, if_pos (by decide : exLeaf.isEmpty = true)]
  rfl

theorem exA_eval_2 :
    Cache.last_le_recursive [2, 2, 1] ⟨Ordering.eq, 1, 12, exA2⟩ [2, 0, 0] =
      PRes.ok (none, [2, 2, 0]) := by
  rw [lastLe_eq_found [2, 2, 1] 1 12 exA2 [2, 0, 0] 0 (2, 0, exA22) (by decide)
    (by decide) (by rw [show [2, 2, 1].getD 1 0 = 2 from rfl]; exact exA_find_2)]
  rw [show keySet [2, 0, 0] 1 (2, 0, exA22).1 = PRes.ok [2, 2, 0] from rfl]
  rw [PRes.bind_ok]
  rw [show compare (2, 0, exA22).1 ([2, 2, 1].getD 1 0) = Ordering.eq from rfl]
  rw [show (1 : Nat) + 1 = 2 from rfl, show (12 : Nat) + (2, 0, exA22).2.1 = 12 from rfl]
  rw [show (2, 0, exA22).2.2 = exA22 from rfl]
  rw [exA_eval_22, PRes.bind_ok]
  rfl

theorem exA_eval_root :
    Cache.last_le_recursive [2, 2, 1] ⟨Ordering.eq, 0, 0, exA⟩ [0, 0, 0] =
      PRes.ok (some 5, [1, 2, 0]) := by
  rw [lastLe_eq_found [2, 2, 1] 0 0 exA [0, 0, 0] 1 (2, 12, exA2) (by decide)
    (by decide) (by rw [show [2, 2, 1].getD 0 0 = 2 from rfl]; exact exA_find_root)]
  rw [show keySet [0, 0, 0] 0 (2, 12, exA2).1 = PRes.ok [2, 0, 0] from rfl]
  rw [PRes.bind_ok]
  rw [show compare (2, 12, exA2).1 ([2, 2, 1].getD 0 0) = Ordering.eq from rfl]
  rw [show (0 : Nat) + 1 = 1 from rfl, show (0 : Nat) + (2, 12, exA2).2.1 = 12 from rfl]
  rw [show (2, 12, exA2).2.2 = exA2 from rfl]
  rw [exA_eval_2, PRes.bind_ok]
  show PRes.bind
      (PRes.bind (keySet [2, 2, 0] 0 1) (fun key3 =>
        Cache.last_le_recursive [2, 2, 1] ⟨Ordering.lt, 1, 5, exLeaf⟩ key3))
      (fun rk =>
        PRes.ok (match rk.1 with
          | some o => some o
          | none => if exA.isFinal then some 0 else none,
          rk.2)) = PRes.ok (some 5, [1, 2, 0])
  rw [show keySet [2, 2, 0] 0 1 = PRes.ok [1, 2, 0] from rfl, PRes.bind_ok,
    exA_eval_lt_leaf]
  rfl

theorem exA_last_le :
    Cache.last_le 3 exA [2, 2, 1] = PRes.ok (some ([1, 2, 0], 5)) := by
  rw [Cache.last_le, LastLeSearch.initial_eq,
    show List.replicate 3 0 = [0, 0, 0] from rfl, exA_eval_root]
  rfl

/-- Store with the single key `[1]` (offset 0). -/
def exB : Node := Node.mk false [(1, 0, exLeaf)]

theorem exB_find : find_last_le_transition exB 1 = some (0, (1, 0, exLeaf)) := by
  simp [find_last_le_transition, findLastLeLoop, Node.transition, Node.len,
    exB, exLeaf, Transition.inp]

theorem exB_eval_leaf :
    Cache.last_le_recursive [1] ⟨Ordering.eq, 1, 0, exLeaf⟩ [1, 0] =
      PRes.ok (some 0, [1, 0]) := by
  rw [lastLe_eq_leaf [1] 1 0 exLeaf [1, 0] (by decide)]
  rfl

theorem exB_eval_root :
    Cache.last_le_recursive [1] ⟨Ordering.eq, 0, 0, exB⟩ [0, 0] =
      PRes.ok (some 0, [1, 0]) := by
  rw [lastLe_eq_found [1] 0 0 exB [0, 0] 0 (1, 0, exLeaf) (by decide)
    (by decide) (by rw [show [1].getD 0 0 = 1 from rfl]; exact exB_find)]
  rw [show keySet [0, 0] 0 (1, 0, exLeaf).1 = PRes.ok [1, 0] from rfl]
  rw [PRes.bind_ok]
  rw [show compare (1, 0, exLeaf).1 ([1].getD 0 0) = Ordering.eq from rfl]
  rw [show (0 : Nat) + 1 = 1 from rfl, show (0 : Nat) + (1, 0, exLeaf).2.1 = 0 from rfl]
  rw [show (1, 0, exLeaf).2.2 = exLeaf from rfl]
  rw [exB_eval_leaf, PRes.bind_ok]
  rfl

theorem exB_last_le :
    Cache.last_le 2 exB [1] = PRes.ok (some ([1, 0], 0)) := by
  rw [Cache.last_le, LastLeSearch.initial_eq,
    show List.replicate 2 0 = [0, 0] from rfl, exB_eval_root]
  rfl

/-- Store with the single key `[0, 0]` (offset 0). -/
def exD : Node := Node.mk false [(0, 0, Node.mk false [(0, 0, exLeaf)])]

theorem exD0_loop :
    Cache.lastLoop (Node.mk false [(0, 0, exLeaf)]) 1 0 [0] = PRes.panicked := by
  rw [Cache.lastLoop]
  rfl

theorem exD_loop : Cache.lastLoop exD 0 0 [0] = PRes.panicked := by
  rw [Cache.lastLoop]
  show Cache.lastLoop (Node.mk false [(0, 0, exLeaf)]) 1 0 [0] = PRes.panicked
  exact exD0_loop

theorem exD_last : Cache.last 1 exD = PRes.panicked := by
  rw [Cache.last, show List.replicate 1 0 = [0] from rfl, exD_loop]

/-- Store with the single key `[1, 2]` (offset 7). -/
def exC : Node := Node.mk false [(1, 7, Node.mk false [(2, 0, exLeaf)])]

/-! ## Claim theorems -/

theorem transition_eq_of_getElem? {n : Node} {i : Nat} {t : Transition}
    (h : n.trans[i]? = some t) : n.transition i = t := by
  obtain ⟨hi, hget⟩ := List.getElem?_eq_some.mp h
  rw [Node.transition, List.getD_eq_getElem _ _ hi, hget]

/-- C1 (amended).  For a well-formed store whose keys and bound fit the
caller-chosen width `N`, `last_le` returns `none` exactly when no stored key
is at or below the bound, and otherwise returns the greatest such key's
offset together with a buffer of width `N` beginning with that key. -/
theorem C1_last_le_correct (root : Node) (U : List Nat) (N : Nat)
    (hwf : WF root) (hU : U.length ≤ N) (hM : maxKeyLen root ≤ N) :
    ((∀ kv ∈ entries root, keyLe kv.1 U = false) →
        Cache.last_le N root U = PRes.ok none) ∧
    (∀ K o, IsGreatestLe root U K o →
        ∃ buf, Cache.last_le N root U = PRes.ok (some (buf, o)) ∧
          buf.length = N ∧ buf.take K.length = K) ∧
    (Cache.last_le N root U = PRes.ok none →
        ∀ kv ∈ entries root, keyLe kv.1 U = false) := by
  refine ⟨fun hA => last_le_none_spec hwf hU hM hA,
    fun K o hG => last_le_some_spec hwf hU hM hG, ?_⟩
  intro hnone kv hkv
  by_contra hc
  have hkvU : keyLe kv.1 U = true := by
    cases h : keyLe kv.1 U
    · exact absurd h hc
    · rfl
  obtain ⟨m, hm, hmU, hmax⟩ := exists_greatest_le (entries root) U ⟨kv, hkv, hkvU⟩
  have hG : IsGreatestLe root U m.1 m.2 := ⟨hm, hmU, hmax⟩
  obtain ⟨buf, hbuf, _, _⟩ := last_le_some_spec hwf hU hM hG
  rw [hnone] at hbuf
  exact absurd (PRes.ok.inj hbuf) (by simp)

/-- Witness for C1 on the store `exA`: the greatest key at or below `[3]`
is `[2, 2, 2]`, returned with its offset 12. -/
theorem C1_witness :
    ∃ buf, Cache.last_le 3 exA [3] = PRes.ok (some (buf, 12)) ∧
      buf.length = 3 ∧ buf.take 3 = [2, 2, 2] :=
  (C1_last_le_correct exA [3] 3 (by decide) (by decide) (by decide)).2.1
    [2, 2, 2] 12 (by decide)

/-- C1 counterexample: on the store with keys `[1]` and `[2, 2, 2]` and
bound `[2, 2, 1]`, the greatest stored key at or below the bound is `[1]`,
but `last_le` returns the buffer `[1, 2, 0]` — the failed descent's bytes
are left after the key, so the returned key is neither `[1]` nor its
zero-padding. -/
theorem C1_counterexample :
    Cache.last_le 3 exA [2, 2, 1] = PRes.ok (some ([1, 2, 0], 5)) ∧
    IsGreatestLe exA [2, 2, 1] [1] 5 ∧
    ([1, 2, 0] : List Nat) ≠ [1] ++ List.replicate 2 0 :=
  ⟨exA_last_le, by decide, by decide⟩

/-- C2.  On a node with strictly ascending input bytes, the binary search
returns the transition with the greatest input byte at or below the bound,
or `none` exactly when every input byte exceeds the bound. -/
theorem C2_find_spec (node : Node) (u : Nat)
    (hs : List.Pairwise (fun a b : Transition => a.inp < b.inp) node.trans) :
    (find_last_le_transition node u = none ↔ ∀ t ∈ node.trans, u < t.inp) ∧
    (∀ i t, find_last_le_transition node u = some (i, t) →
      node.trans[i]? = some t ∧ t.inp ≤ u ∧
      ∀ j t', node.trans[j]? = some t' → t'.inp ≤ u → j ≤ i) := by
  obtain ⟨h1, h2⟩ := find_last_le_transition_spec node u hs
  constructor
  · constructor
    · intro hn t ht
      rcases mem_trans_index ht with ⟨j, hj, rfl⟩
      simpa using h1 hn j hj
    · intro hall
      cases hf : find_last_le_transition node u with
      | none => rfl
      | some it =>
        obtain ⟨i, t⟩ := it
        obtain ⟨hi, hteq, htle, _⟩ := h2 i t hf
        have hgt := hall t (hteq ▸ transition_mem hi)
        simp only [Transition.inp_eq] at hgt htle
        omega
  · intro i t hf
    obtain ⟨hi, hteq, htle, hmax⟩ := h2 i t hf
    refine ⟨by rw [← hteq]; exact transition_getElem hi, htle, ?_⟩
    intro j t' hj' htle'
    have hjlen : j < node.len := by
      rw [Node.len]
      exact (List.getElem?_eq_some.mp hj').1
    have hjt : node.transition j = t' := transition_eq_of_getElem? hj'
    exact hmax j hjlen (by rw [hjt]; exact htle')

/-- Witness for C2 on the root of `exA` with bound byte 0, below every
transition. -/
theorem C2_witness :
    find_last_le_transition exA 0 = none ↔ ∀ t ∈ exA.trans, 0 < t.inp :=
  (C2_find_spec exA 0 (pairwise_of_ascendingInps exA.trans (by decide))).1

/-- C3 (amended).  Whenever the greatest stored key at or below the bound is
longer than `N`, the operation aborts. -/
theorem C3_panic_when_longer (root : Node) (U : List Nat) (N : Nat)
    (hwf : WF root) (K : List Nat) (o : Nat) (hG : IsGreatestLe root U K o)
    (hlong : N < K.length) :
    Cache.last_le N root U = PRes.panicked :=
  last_le_panic_of_long hwf hG hlong

/-- Witness for C3 on the store with single key `[1, 2]` and width 1. -/
theorem C3_witness : Cache.last_le 1 exC [1, 2] = PRes.panicked :=
  C3_panic_when_longer exC [1, 2] 1 (by decide) [1, 2] 7 (by decide) (by decide)

/-- C3 counterexample: on the store with the single key `[1]`, width 2 and
bound `[1]`, the found key has length 1 ≠ 2, yet the operation does not
abort — it returns the zero-padded buffer. -/
theorem C3_counterexample :
    Cache.last_le 2 exB [1] = PRes.ok (some ([1, 0], 0)) ∧
    IsGreatestLe exB [1] [1] 0 ∧
    ([1] : List Nat).length ≠ 2 :=
  ⟨exB_last_le, by decide, by decide⟩

/-- C4 (amended).  On a well-formed (hence non-empty) store, `last` walks
the rightmost spine to the greatest key: it returns that key and its offset
when the key's length equals `N`, returns `none` when it is shorter, and
aborts when it is longer. -/
theorem C4_last_walk (root : Node) (N : Nat) (hwf : WF root) (K : List Nat)
    (o : Nat) (hG : IsGreatestEntry root K o) :
    Cache.last N root =
      if K.length = N then PRes.ok (some (K, o))
      else if K.length < N then PRes.ok none
      else PRes.panicked :=
  last_spec hwf hG N

/-- Witness for C4 on `exA` with matching width 3. -/
theorem C4_witness : Cache.last 3 exA = PRes.ok (some ([2, 2, 2], 12)) := by
  have := C4_last_walk exA 3 (by decide) [2, 2, 2] 12 (by decide)
  simpa using this

/-- C4 counterexample: on the store with the single key `[0, 0]` and width
1, the walk aborts writing the second byte instead of returning `none`. -/
theorem C4_counterexample :
    entries exD = [([0, 0], 0)] ∧ Cache.last 1 exD = PRes.panicked ∧
    PRes.panicked ≠ (PRes.ok none : PRes (Option (List Nat × Nat))) :=
  ⟨by decide, exD_last, by decide⟩

/-- C5 (amended).  `first` returns the least entry and `last` the greatest
(at the matching width); on a store with no entries `first` returns `none`
but `last` aborts. -/
theorem C5_first_last (root : Node) (hwf : WF root) :
    (∀ K o, IsLeastEntry root K o →
        Cache.first K.length root = PRes.ok (some (K, o))) ∧
    (∀ K o, IsGreatestEntry root K o →
        Cache.last K.length root = PRes.ok (some (K, o))) ∧
    (∀ m : Node, entries m = [] → ∀ N, Cache.first N m = PRes.ok none) ∧
    (∀ m : Node, entries m = [] → ∀ N, Cache.last N m = PRes.panicked) := by
  refine ⟨fun K o hL => first_spec hwf hL, fun K o hG => ?_,
    fun m hE N => first_empty hE N, fun m hE N => ?_⟩
  · have := last_spec hwf hG K.length
    simpa using this
  · rw [Cache.last, lastLoop_empty m hE 0 0 _]

/-- Witness for C5: the least entry of `exA`. -/
theorem C5_witness : Cache.first 1 exA = PRes.ok (some ([1], 5)) :=
  (C5_first_last exA (by decide)).1 [1] 5 (by decide)

/-- C5 counterexample: on the empty store `last` aborts rather than
returning `none` (the walk underflows `n.len() - 1` at the non-final root
with no transitions). -/
theorem C5_counterexample :
    entries (Node.mk false []) = [] ∧
    Cache.last 2 (Node.mk false []) = PRes.panicked ∧
    PRes.panicked ≠ (PRes.ok none : PRes (Option (List Nat × Nat))) := by
  refine ⟨by decide, ?_, by decide⟩
  rw [Cache.last, lastLoop_empty (Node.mk false []) (by decide) 0 0 _]

/-- C6.  The binary-search loop exits within `upper - lower` iterations:
with that much fuel the fuel-indexed loop never exhausts its budget and
agrees with the unbounded loop. -/
theorem C6_loop_terminates (node : Node) (u lower upper fuel : Nat)
    (h1 : lower ≤ upper) (h2 : upper - lower ≤ fuel) :
    findLastLeLoopFuel node u lower upper fuel =
      some (findLastLeLoop node u lower upper) :=
  findLastLeLoopFuel_eq node u fuel lower upper h1 h2

/-- Witness for C6 on the root of `exA`. -/
theorem C6_witness :
    findLastLeLoopFuel exA 2 0 2 2 = some (findLastLeLoop exA 2 0 2) :=
  C6_loop_terminates exA 2 0 2 2 (by decide) (by decide)

/-- C7.  A successful `commit_entry` records `(key, committed)` and then
promotes the committed cursor; consequently, on every reachable builder
state the recorded offsets are the partial sums of the per-entry value
lengths — each key's offset counts exactly the bytes appended before its
own value bytes. -/
theorem C7_commit_records_offset :
    (∀ (b : FileBuilder) (key : List Nat) (b' : FileBuilder),
      FileBuilder.commit_entry b key = (Except.ok (), b') →
      b'.map_entries = b.map_entries ++ [(key, b.committed_value_cursor)] ∧
      b'.committed_value_cursor = b.value_cursor) ∧
    (∀ b : FileBuilder, Reachable b →
      ∃ lens pending,
        b.map_entries.map (fun e => e.2) = partialSums lens ∧
        b.committed_value_cursor = lens.sum ∧
        b.value_cursor = lens.sum + pending ∧
        b.value_bytes.length = lens.sum + pending) :=
  ⟨fun _ _ _ h => ⟨(commit_entry_ok h).1, (commit_entry_ok h).2.2.2⟩,
   builder_invariant⟩

/-- Witness for C7: after `insert [7] [9, 9]` from the fresh builder the
single recorded offset is 0 and both cursors equal 2. -/
theorem C7_witness :
    ∃ lens pending,
      ([([7], 0)] : List (List Nat × Nat)).map (fun e => e.2) = partialSums lens ∧
      (2 : Nat) = lens.sum ∧
      (2 : Nat) = lens.sum + pending ∧
      ([9, 9] : List Nat).length = lens.sum + pending :=
  C7_commit_records_offset.2 ⟨[([7], 0)], [9, 9], 2, 2⟩
    (Reachable.step _ (BuilderOp.insertKV [7] [9, 9]) _ Reachable.init rfl)

/-- C8.  Both cursors start at zero, no successful or failing call ever
decreases either cursor from a reachable state, and the appended cursor
dominates the committed cursor on every reachable state. -/
theorem C8_cursor_invariants :
    FileBuilder.new.value_cursor = 0 ∧
    FileBuilder.new.committed_value_cursor = 0 ∧
    (∀ b : FileBuilder, Reachable b → ∀ op r b', runOp b op = (r, b') →
      b.value_cursor ≤ b'.value_cursor ∧
      b.committed_value_cursor ≤ b'.committed_value_cursor) ∧
    (∀ b : FileBuilder, Reachable b →
      b.committed_value_cursor ≤ b.value_cursor) :=
  ⟨rfl, rfl, fun _ hb op _ _ h => cursor_monotone hb op h,
   fun _ hb => cursor_invariant hb⟩

/-- Witness for C8: one `append [1, 2, 3]` from the fresh builder. -/
theorem C8_witness :
    FileBuilder.new.value_cursor ≤
      (FileBuilder.mk [] [1, 2, 3] 3 0).value_cursor ∧
    FileBuilder.new.committed_value_cursor ≤
      (FileBuilder.mk [] [1, 2, 3] 3 0).committed_value_cursor :=
  C8_cursor_invariants.2.2.1 FileBuilder.new Reachable.init
    (BuilderOp.append [1, 2, 3]) (Except.ok ()) (FileBuilder.mk [] [1, 2, 3] 3 0) rfl

/-- C9.  `insert` is observably the sequence `append_value_bytes` then
`commit_entry`: it produces the same result and the same final state as the
two-call sequence with the intermediate state threaded through. -/
theorem C9_insert_equiv (b : FileBuilder) (key value : List Nat) :
    runOp b (BuilderOp.insertKV key value) =
      (match (runOp b (BuilderOp.append value)).1 with
       | Except.error e => (Except.error e, (runOp b (BuilderOp.append value)).2)
       | Except.ok _ =>
           runOp (runOp b (BuilderOp.append value)).2 (BuilderOp.commit key)) :=
  rfl

/-- C10.  When the index builder rejects the key, `commit_entry` propagates
the error before the cursor update: the builder state, in particular both
cursors, is unchanged. -/
theorem C10_commit_error_atomic (b : FileBuilder) (key : List Nat) (e : Unit)
    (b' : FileBuilder)
    (h : FileBuilder.commit_entry b key = (Except.error e, b')) :
    b' = b ∧ b'.value_cursor = b.value_cursor ∧
    b'.committed_value_cursor = b.committed_value_cursor := by
  have hb := commit_entry_error h
  exact ⟨hb, by rw [hb], by rw [hb]⟩

/-- Witness for C10: committing the out-of-order key `[1]` after `[2]`. -/
theorem C10_witness :
    (FileBuilder.mk [([2], 0)] [] 0 0 = FileBuilder.mk [([2], 0)] [] 0 0) ∧
    ((FileBuilder.mk [([2], 0)] [] 0 0).value_cursor =
      (FileBuilder.mk [([2], 0)] [] 0 0).value_cursor) ∧
    ((FileBuilder.mk [([2], 0)] [] 0 0).committed_value_cursor =
      (FileBuilder.mk [([2], 0)] [] 0 0).committed_value_cursor) :=
  C10_commit_error_atomic ⟨[([2], 0)], [], 0, 0⟩ [1] ()
    ⟨[([2], 0)], [], 0, 0⟩ rfl
